import Mathlib

/-!
Verification of the reactivity kernel, scheduler, KeepAlive cache and parser
whitespace handling of the repository, via a shallow embedding in Lean.

Part 1 embeds the reactivity kernel:
  packages/reactivity/src/effect.ts       (ReactiveEffect, trackEffect,
                                           cleanupDepEffect, triggerEffects,
                                           scheduleEffects, pause and reset
                                           helpers)
  packages/reactivity/src/reactiveEffect.ts (track, trigger)
  packages/reactivity/src/baseHandlers.ts (array instrumentations, proxy
                                           get, set, deleteProperty traps)

Effects are identified by natural numbers; a Dep is, as in the source, an
insertion-ordered map from effect to the last recorded track id, embedded as
an association list.  The state carries one reactive array target (enough
for every claim about the proxy traps) and the module-level globals of
effect.ts.  A drained scheduler job is recorded in `ranLog` rather than
interpreted; the source would call the schedulers there.
-/

namespace Spec2Proof

/-- Property keys of a reactive dep map (`string | symbol` in JS).  Integer
string keys are a separate constructor because `trigger` compares them
numerically against a new array length; the two iteration sentinels are the
ITERATE and MAP-KEY-ITERATE symbols of reactiveEffect.ts, and `sym` stands
for any other symbol key. -/
inductive RKey where
  | str (s : String)
  | idx (n : Nat)
  | iterateKey
  | mapKeyIterateKey
  | sym (n : Nat)
deriving DecidableEq

/-- `isSymbol(key)` of @vue/shared. -/
def RKey.isSymbolKey : RKey → Bool
  | .iterateKey => true
  | .mapKeyIterateKey => true
  | .sym _ => true
  | _ => false

/-- The JS comparison `key >= newLength` performed by `trigger` for the
array length fast path: integer-string keys coerce to their number, any
other string compares as NaN and the comparison is false. -/
def RKey.geLength : RKey → Nat → Bool
  | .idx m, n => n ≤ m
  | _, _ => false

/-- The string key "length". -/
def lengthKey : RKey := RKey.str "length"

/-- `isIntegerKey(key)` of @vue/shared, on an optional trigger key. -/
def isIntegerKeyOpt : Option RKey → Bool
  | some (.idx _) => true
  | _ => false

/-- What `isArray` / `isMap` see of the trigger target. -/
inductive TargetKind where
  | array
  | map
  | setCollection
  | plain
deriving DecidableEq

/-- TriggerOpTypes of constants.ts. -/
inductive TriggerOp where
  | setOp
  | addOp
  | deleteOp
  | clearOp
deriving DecidableEq

/-- A Dep: the insertion-ordered map from effect id to recorded track id. -/
abbrev Dep := List (Nat × Nat)

/-- `dep.get(effect)`. -/
def depGet (d : Dep) (e : Nat) : Option Nat :=
  (d.find? (fun p => p.1 = e)).map (fun p => p.2)

/-- `dep.set(effect, id)`: updating an existing key keeps its position,
as a JS Map does; a new key is appended. -/
def depSet (d : Dep) (e tid : Nat) : Dep :=
  if (d.find? (fun p => p.1 = e)).isSome then
    d.map (fun p => if p.1 = e then (e, tid) else p)
  else
    d ++ [(e, tid)]

/-- `dep.delete(effect)`. -/
def depDelete (d : Dep) (e : Nat) : Dep :=
  d.filter (fun p => p.1 ≠ e)

/-- Lookup in an insertion-ordered key map (the per-target depsMap, the
reactive registry, the KeepAlive cache all use this shape). -/
def mapGet {κ α : Type} [DecidableEq κ] (m : List (κ × α)) (k : κ) : Option α :=
  (m.find? (fun p => p.1 = k)).map (fun p => p.2)

/-- The per-effect fields of class ReactiveEffect (effect.ts), plus two
observation counters: `triggerCount` counts calls of the `trigger` notify
callback and `runCount` counts executions of the wrapped function. -/
structure Eff where
  active : Bool
  allowRecurse : Bool
  hasScheduler : Bool
  dirtyLevel : Nat
  trackId : Nat
  runnings : Nat
  shouldSchedule : Bool
  depsLength : Nat
  deps : List Nat
  triggerCount : Nat
  runCount : Nat
deriving DecidableEq

/-- A fresh effect as constructed by `new ReactiveEffect` followed by the
`effect()` wrapper (which always attaches a scheduler). -/
def Eff.fresh : Eff :=
  { active := true, allowRecurse := false, hasScheduler := true
    dirtyLevel := 2, trackId := 0, runnings := 0, shouldSchedule := false
    depsLength := 0, deps := [], triggerCount := 0, runCount := 0 }

/-- The reactivity kernel state: all effects (by id), all deps (by id), the
depsMap of the single reactive target under consideration together with the
raw array it wraps, and the module-level globals of effect.ts.  `ranLog`
records drained scheduler jobs in order. -/
structure KState where
  effects : Nat → Eff
  deps : Nat → Dep
  trackedTarget : Bool
  targetKeys : List (RKey × Nat)
  nextDep : Nat
  arr : List Int
  shouldTrack : Bool
  trackStack : List Bool
  activeEffect : Option Nat
  pauseScheduleStack : Int
  queue : List Nat
  ranLog : List Nat

/-- Apply an update to the fields of one effect. -/
def updateEff (st : KState) (e : Nat) (f : Eff → Eff) : KState :=
  { st with effects := fun j => if j = e then f (st.effects j) else st.effects j }

/-- Replace one dep map. -/
def setDep (st : KState) (d : Nat) (l : Dep) : KState :=
  { st with deps := fun j => if j = d then l else st.deps j }

/-- `pauseTracking()` of effect.ts. -/
def pauseTracking (st : KState) : KState :=
  { st with trackStack := st.shouldTrack :: st.trackStack, shouldTrack := false }

/-- `resetTracking()` of effect.ts. -/
def resetTracking (st : KState) : KState :=
  match st.trackStack with
  | [] => { st with shouldTrack := true }
  | b :: rest => { st with shouldTrack := b, trackStack := rest }

/-- `pauseScheduling()` of effect.ts. -/
def pauseScheduling (st : KState) : KState :=
  { st with pauseScheduleStack := st.pauseScheduleStack + 1 }

/-- `resetScheduling()` of effect.ts: decrement the pause stack and, when it
reaches zero, drain the queued schedulers.  Draining is recorded in
`ranLog`; the source calls each drained scheduler. -/
def resetScheduling (st : KState) : KState :=
  let s := st.pauseScheduleStack - 1
  if s = 0 then
    { st with pauseScheduleStack := s, ranLog := st.ranLog ++ st.queue, queue := [] }
  else
    { st with pauseScheduleStack := s }

/-- `cleanupDepEffect(dep, effect)` of effect.ts: drop the subscription when
the recorded track id is stale, and when the dep becomes empty run its
cleanup, which deletes the owning key from the depsMap of its target. -/
def cleanupDepEffect (st : KState) (d e : Nat) : KState :=
  match depGet (st.deps d) e with
  | none => st
  | some tid =>
    if (st.effects e).trackId ≠ tid then
      if (depDelete (st.deps d) e).length = 0 then
        { setDep st d (depDelete (st.deps d) e) with
          targetKeys := st.targetKeys.filter (fun p => p.2 ≠ d) }
      else setDep st d (depDelete (st.deps d) e)
    else st

/-- `trackEffect(effect, dep)` of effect.ts.  The JS statement
`effect.deps[effect._depsLength++] = dep` overwrites the slot when it exists
and appends when `_depsLength` equals the array length (the only other case
the source can reach, since `_depsLength` never exceeds the length). -/
def trackEffect (st : KState) (e d : Nat) : KState :=
  if depGet (st.deps d) e ≠ some (st.effects e).trackId then
    match (st.effects e).deps.get? (st.effects e).depsLength with
    | some oldDep =>
      if oldDep ≠ d then
        updateEff
          (cleanupDepEffect
            (setDep st d (depSet (st.deps d) e (st.effects e).trackId)) oldDep e)
          e
          (fun f =>
            { f with deps := f.deps.set f.depsLength d,
                     depsLength := f.depsLength + 1 })
      else
        updateEff (setDep st d (depSet (st.deps d) e (st.effects e).trackId)) e
          (fun f => { f with depsLength := f.depsLength + 1 })
    | none =>
      updateEff (setDep st d (depSet (st.deps d) e (st.effects e).trackId)) e
        (fun f => { f with deps := f.deps ++ [d], depsLength := f.depsLength + 1 })
  else st

/-- `preCleanupEffect(effect)` of effect.ts. -/
def preCleanupEffect (st : KState) (e : Nat) : KState :=
  updateEff st e (fun f => { f with trackId := f.trackId + 1, depsLength := 0 })

/-- `postCleanupEffect(effect)` of effect.ts. -/
def postCleanupEffect (st : KState) (e : Nat) : KState :=
  if (st.effects e).depsLength < (st.effects e).deps.length then
    updateEff
      (((st.effects e).deps.drop (st.effects e).depsLength).foldl
        (fun s d => cleanupDepEffect s d e) st)
      e
      (fun f => { f with deps := f.deps.take f.depsLength })
  else st

/-- `track(target, type, key)` of reactiveEffect.ts, specialised to the one
target of the state: create the depsMap and the dep on demand, then record
the active effect in it. -/
def track (st : KState) (key : RKey) : KState :=
  if st.shouldTrack then
    match st.activeEffect with
    | none => st
    | some e =>
      let st := { st with trackedTarget := true }
      match mapGet st.targetKeys key with
      | some d => trackEffect st e d
      | none =>
        let d := st.nextDep
        let st := { st with
          targetKeys := st.targetKeys ++ [(key, d)]
          nextDep := d + 1
          deps := fun j => if j = d then [] else st.deps j }
        trackEffect st e d
  else st

/-- The loop body of `scheduleEffects(dep)` of effect.ts. -/
def scheduleStep (d : Nat) (s : KState) (p : Nat × Nat) : KState :=
  let eff := s.effects p.1
  if eff.hasScheduler ∧ eff.shouldSchedule ∧
      (eff.runnings = 0 ∨ eff.allowRecurse) ∧
      depGet (s.deps d) p.1 = some eff.trackId then
    let s := updateEff s p.1 (fun f => { f with shouldSchedule := false })
    { s with queue := s.queue ++ [p.1] }
  else s

/-- `scheduleEffects(dep)` of effect.ts. -/
def scheduleEffects (st : KState) (d : Nat) : KState :=
  (st.deps d).foldl (scheduleStep d) st

/-- The loop body of `triggerEffects(dep, dirtyLevel)` of effect.ts. -/
def triggerStep (d : Nat) (dirtyLevel : Nat) (s : KState) (p : Nat × Nat) :
    KState :=
  let eff := s.effects p.1
  if eff.dirtyLevel < dirtyLevel ∧ depGet (s.deps d) p.1 = some eff.trackId then
    let last := eff.dirtyLevel
    let s := updateEff s p.1 (fun f => { f with dirtyLevel := dirtyLevel })
    if last = 0 then
      updateEff s p.1 (fun f =>
        { f with shouldSchedule := true, triggerCount := f.triggerCount + 1 })
    else s
  else s

/-- `triggerEffects(dep, dirtyLevel)` of effect.ts. -/
def triggerEffects (st : KState) (d : Nat) (dirtyLevel : Nat) : KState :=
  let st := pauseScheduling st
  let st := (st.deps d).foldl (triggerStep d dirtyLevel) st
  let st := scheduleEffects st d
  resetScheduling st

/-- The dep collection phase of `trigger(target, type, key, newValue)` of
reactiveEffect.ts, as a function of the depsMap of the target.  An entry is
`none` where the source pushes an absent `depsMap.get(...)`; the newValue
argument only matters for the array length fast path, where the source reads
`Number(newValue)`. -/
def collectDeps (depsMap : List (RKey × Nat)) (kind : TargetKind)
    (ttype : TriggerOp) (key : Option RKey) (newLength : Nat) :
    List (Option Nat) :=
  if ttype = TriggerOp.clearOp then
    depsMap.map (fun p => some p.2)
  else if key = some lengthKey ∧ kind = TargetKind.array then
    (depsMap.filter
      (fun p => p.1 = lengthKey ∨ (¬p.1.isSymbolKey ∧ p.1.geLength newLength))).map
      (fun p => some p.2)
  else
    (match key with
      | none => []
      | some k => [mapGet depsMap k]) ++
    (match ttype with
      | .addOp =>
        if kind ≠ TargetKind.array then
          [mapGet depsMap RKey.iterateKey] ++
            (if kind = TargetKind.map then [mapGet depsMap RKey.mapKeyIterateKey] else [])
        else if isIntegerKeyOpt key then [mapGet depsMap lengthKey] else []
      | .deleteOp =>
        if kind ≠ TargetKind.array then
          [mapGet depsMap RKey.iterateKey] ++
            (if kind = TargetKind.map then [mapGet depsMap RKey.mapKeyIterateKey] else [])
        else []
      | .setOp => if kind = TargetKind.map then [mapGet depsMap RKey.iterateKey] else []
      | .clearOp => [])

/-- `trigger(target, type, key, newValue)` of reactiveEffect.ts: bail out
when the target has never been tracked, otherwise collect the affected deps
and run `triggerEffects` at level Dirty (2) on each present one, inside a
pauseScheduling / resetScheduling bracket.  `triggerDepStep` is the loop
body over the collected deps. -/
def triggerDepStep (s : KState) (od : Option Nat) : KState :=
  match od with
  | none => s
  | some d => triggerEffects s d 2

/-- `trigger(target, type, key, newValue)` of reactiveEffect.ts. -/
def trigger (st : KState) (kind : TargetKind) (ttype : TriggerOp)
    (key : Option RKey) (newLength : Nat) : KState :=
  if st.trackedTarget then
    let st0 := pauseScheduling st
    let st1 := (collectDeps st.targetKeys kind ttype key newLength).foldl
      triggerDepStep st0
    resetScheduling st1
  else st

/-- `ReactiveEffect.run` of effect.ts, with the wrapped function given
explicitly as a state transformer; `runCount` observes its invocations. -/
def runEffect (st : KState) (e : Nat) (body : KState → KState) : KState :=
  let st := updateEff st e (fun f => { f with dirtyLevel := 0 })
  if (st.effects e).active then
    let lastShouldTrack := st.shouldTrack
    let lastEffect := st.activeEffect
    let st := { st with shouldTrack := true, activeEffect := some e }
    let st := updateEff st e (fun f => { f with runnings := f.runnings + 1 })
    let st := preCleanupEffect st e
    let st := updateEff st e (fun f => { f with runCount := f.runCount + 1 })
    let st := body st
    let st := postCleanupEffect st e
    let st := updateEff st e (fun f => { f with runnings := f.runnings - 1 })
    { st with activeEffect := lastEffect, shouldTrack := lastShouldTrack }
  else
    let st := updateEff st e (fun f => { f with runCount := f.runCount + 1 })
    body st

/-- JS array index assignment `target[n] = v` (Reflect.set on the raw
array): in-bounds writes update, writing at the length appends and bumps the
length; a write past the end would create holes, modelled as zero fill. -/
def rawSetIdx (arr : List Int) (n : Nat) (v : Int) : List Int :=
  if n < arr.length then arr.set n v
  else arr ++ List.replicate (n - arr.length) 0 ++ [v]

/-- JS array length assignment: truncate or zero-fill extend. -/
def rawSetLength (arr : List Int) (m : Nat) : List Int :=
  if m ≤ arr.length then arr.take m
  else arr ++ List.replicate (m - arr.length) 0

/-- The proxy `get` trap of baseHandlers.ts reading `length` (not an
instrumented key, not a symbol): it tracks GET of "length" and returns the
value, which callers read off the raw array. -/
def proxyGetLength (st : KState) : KState :=
  track st lengthKey

/-- The proxy `get` trap reading an integer index. -/
def proxyGetIdx (st : KState) (n : Nat) : KState :=
  track st (RKey.idx n)

/-- The proxy `set` trap of MutableReactiveHandler (baseHandlers.ts) on an
integer key of the array target: `hadKey` is `Number(key) < target.length`,
then Reflect.set, then ADD or (on change) SET is triggered — the receiver
is the registered proxy, so `target === toRaw(receiver)` holds. -/
def proxySetIdx (st : KState) (n : Nat) (v : Int) : KState :=
  let hadKey := n < st.arr.length
  let oldValue := st.arr.getD n 0
  let st := { st with arr := rawSetIdx st.arr n v }
  if ¬hadKey then
    trigger st TargetKind.array TriggerOp.addOp (some (RKey.idx n)) v.toNat
  else if v ≠ oldValue then
    trigger st TargetKind.array TriggerOp.setOp (some (RKey.idx n)) v.toNat
  else st

/-- The proxy `set` trap on the `length` key: `hadKey` is always true, the
old value is the current length, SET is triggered on change with the new
length as newValue. -/
def proxySetLength (st : KState) (m : Nat) : KState :=
  let oldValue := st.arr.length
  let st := { st with arr := rawSetLength st.arr m }
  if m ≠ oldValue then
    trigger st TargetKind.array TriggerOp.setOp (some lengthKey) m
  else st

/-- The proxy `deleteProperty` trap on an integer key: `hadKey` from hasOwn,
Reflect.deleteProperty leaves a hole (modelled as 0) and returns true, then
DELETE is triggered when the key existed. -/
def proxyDeleteIdx (st : KState) (n : Nat) : KState :=
  let hadKey := n < st.arr.length
  let st := { st with arr := st.arr.set n 0 }
  if hadKey then
    trigger st TargetKind.array TriggerOp.deleteOp (some (RKey.idx n)) 0
  else st

/-- One step of a built-in array method running against the proxy receiver:
every read and write of `Array.prototype.push/pop/shift/unshift/splice`
goes through one of the proxy traps above. -/
inductive ArrayTrap where
  | getLength
  | getIdx (n : Nat)
  | setIdx (n : Nat) (v : Int)
  | setLength (m : Nat)
  | delIdx (n : Nat)

/-- Run one proxy trap. -/
def runTrap (st : KState) : ArrayTrap → KState
  | .getLength => proxyGetLength st
  | .getIdx n => proxyGetIdx st n
  | .setIdx n v => proxySetIdx st n v
  | .setLength m => proxySetLength st m
  | .delIdx n => proxyDeleteIdx st n

/-- Run the trap sequence of a built-in array method body. -/
def runTraps (ts : List ArrayTrap) (st : KState) : KState :=
  ts.foldl runTrap st

/-- The common wrapper `createArrayInstrumentations` (baseHandlers.ts) puts
around push, pop, shift, unshift and splice:
pauseTracking; pauseScheduling; run the raw method against the proxy;
resetScheduling; resetTracking. -/
def instrumented (ts : List ArrayTrap) (st : KState) : KState :=
  let st := pauseTracking st
  let st := pauseScheduling st
  let st := runTraps ts st
  let st := resetScheduling st
  resetTracking st

/-- The trap sequence `Array.prototype.push(v)` performs on a proxy of an
array of length `len`: read length, set index `len`, set length `len + 1`. -/
def pushTraps (len : Nat) (v : Int) : List ArrayTrap :=
  [ArrayTrap.getLength, ArrayTrap.setIdx len v, ArrayTrap.setLength (len + 1)]

/-- The instrumented `push(v)` on the reactive array of the state. -/
def instrumentedPush (st : KState) (v : Int) : KState :=
  instrumented (pushTraps st.arr.length v) st

/-- The initial world of the concrete reactivity scenario
`const arr = reactive([]); effect(() => arr.push(1))`: one fresh effect,
no deps, empty raw array, tracking enabled, nothing queued. -/
def pushWorld0 : KState :=
  { effects := fun _ => Eff.fresh
    deps := fun _ => []
    trackedTarget := false
    targetKeys := []
    nextDep := 0
    arr := []
    shouldTrack := true
    trackStack := []
    activeEffect := none
    pauseScheduleStack := 0
    queue := []
    ranLog := [] }

/-- `effect(() => arr.push(1))`: the effect runner executes the body once
through `ReactiveEffect.run`. -/
def pushWorld1 : KState :=
  runEffect pushWorld0 0 (fun s => instrumentedPush s 1)

/-- A later, unrelated `arr.push(2)` outside any effect. -/
def pushWorld2 : KState :=
  instrumentedPush pushWorld1 2

/-! ### Preservation infrastructure

`effCore` and `coreState` project away exactly the fields that the
triggering machinery is allowed to change (dirty level, schedule flag,
notify counter, scheduler queue, drain log, pause stack); everything else —
in particular every recorded dependency and every track id — must survive a
trigger, and survives a whole instrumented array method call. -/

/-- The effect fields untouched by triggering and scheduling. -/
def effCore (f : Eff) :
    Bool × Bool × Bool × Nat × Nat × Nat × List Nat × Nat :=
  (f.active, f.allowRecurse, f.hasScheduler, f.trackId, f.runnings,
   f.depsLength, f.deps, f.runCount)

/-- The state components untouched by triggering and scheduling (the raw
array is excluded: proxy writes do change it). -/
def coreState (st : KState) :
    (Nat → Bool × Bool × Bool × Nat × Nat × Nat × List Nat × Nat) ×
      (Nat → Dep) × List (RKey × Nat) × Bool × Nat × Bool × List Bool ×
      Option Nat :=
  (fun e => effCore (st.effects e), st.deps, st.targetKeys, st.trackedTarget,
   st.nextDep, st.shouldTrack, st.trackStack, st.activeEffect)

theorem coreState_updateEff (st : KState) (e : Nat) (g : Eff → Eff)
    (hg : ∀ f, effCore (g f) = effCore f) :
    coreState (updateEff st e g) = coreState st := by
  unfold coreState updateEff
  simp only
  refine congrArg (fun x => (x, st.deps, st.targetKeys, st.trackedTarget,
    st.nextDep, st.shouldTrack, st.trackStack, st.activeEffect)) ?_
  funext j
  by_cases h : j = e <;> simp [h, hg]

theorem pauseScheduleStack_updateEff (st : KState) (e : Nat) (g : Eff → Eff) :
    (updateEff st e g).pauseScheduleStack = st.pauseScheduleStack := rfl

theorem queue_updateEff (st : KState) (e : Nat) (g : Eff → Eff) :
    (updateEff st e g).queue = st.queue := rfl

theorem arr_updateEff (st : KState) (e : Nat) (g : Eff → Eff) :
    (updateEff st e g).arr = st.arr := rfl

/-- A step function that preserves the core and the pause stack keeps doing
so along a fold. -/
theorem foldl_core_preserved {β : Type} (step : KState → β → KState)
    (h : ∀ s b, coreState (step s b) = coreState s ∧
      (step s b).pauseScheduleStack = s.pauseScheduleStack ∧
      (step s b).arr = s.arr) :
    ∀ (l : List β) (st : KState),
      coreState (l.foldl step st) = coreState st ∧
      (l.foldl step st).pauseScheduleStack = st.pauseScheduleStack ∧
      (l.foldl step st).arr = st.arr := by
  intro l
  induction l with
  | nil => intro st; exact ⟨rfl, rfl, rfl⟩
  | cons b l ih =>
    intro st
    have h1 := h st b
    have h2 := ih (step st b)
    simp only [List.foldl_cons]
    exact ⟨h2.1.trans h1.1, h2.2.1.trans h1.2.1, h2.2.2.trans h1.2.2⟩

theorem triggerStep_core (d : Nat) (L : Nat) (s : KState) (p : Nat × Nat) :
    coreState (triggerStep d L s p) = coreState s ∧
    (triggerStep d L s p).pauseScheduleStack = s.pauseScheduleStack ∧
    (triggerStep d L s p).arr = s.arr := by
  unfold triggerStep
  simp only
  split
  · split
    · refine ⟨?_, rfl, rfl⟩
      exact (coreState_updateEff
          (updateEff s p.1 (fun f => { f with dirtyLevel := L })) p.1
          (fun f => { f with shouldSchedule := true,
                             triggerCount := f.triggerCount + 1 })
          (fun _ => rfl)).trans
        (coreState_updateEff s p.1 (fun f => { f with dirtyLevel := L })
          (fun _ => rfl))
    · refine ⟨?_, rfl, rfl⟩
      exact coreState_updateEff s p.1 (fun f => { f with dirtyLevel := L })
        (fun _ => rfl)
  · exact ⟨rfl, rfl, rfl⟩

theorem scheduleStep_core (d : Nat) (s : KState) (p : Nat × Nat) :
    coreState (scheduleStep d s p) = coreState s ∧
    (scheduleStep d s p).pauseScheduleStack = s.pauseScheduleStack ∧
    (scheduleStep d s p).arr = s.arr := by
  unfold scheduleStep
  simp only
  split
  · refine ⟨?_, rfl, rfl⟩
    exact coreState_updateEff s p.1
      (fun f => { f with shouldSchedule := false }) (fun _ => rfl)
  · exact ⟨rfl, rfl, rfl⟩

theorem scheduleEffects_core (st : KState) (d : Nat) :
    coreState (scheduleEffects st d) = coreState st ∧
    (scheduleEffects st d).pauseScheduleStack = st.pauseScheduleStack ∧
    (scheduleEffects st d).arr = st.arr :=
  foldl_core_preserved (scheduleStep d) (scheduleStep_core d) _ st

theorem coreState_pauseScheduling (st : KState) :
    coreState (pauseScheduling st) = coreState st := rfl

theorem coreState_resetScheduling (st : KState) :
    coreState (resetScheduling st) = coreState st := by
  unfold resetScheduling
  by_cases h : st.pauseScheduleStack - 1 = 0 <;> simp [coreState, h]

theorem arr_resetScheduling (st : KState) :
    (resetScheduling st).arr = st.arr := by
  unfold resetScheduling
  by_cases h : st.pauseScheduleStack - 1 = 0 <;> simp [h]

theorem pauseScheduleStack_resetScheduling (st : KState) :
    (resetScheduling st).pauseScheduleStack = st.pauseScheduleStack - 1 := by
  unfold resetScheduling
  by_cases h : st.pauseScheduleStack - 1 = 0 <;> simp [h]

/-- `triggerEffects` changes no dependency data, no track id, no global
tracking flag and restores the pause stack. -/
theorem triggerEffects_core (st : KState) (d : Nat) (L : Nat) :
    coreState (triggerEffects st d L) = coreState st ∧
    (triggerEffects st d L).pauseScheduleStack = st.pauseScheduleStack ∧
    (triggerEffects st d L).arr = st.arr := by
  unfold triggerEffects
  have hfold := foldl_core_preserved (triggerStep d L) (triggerStep_core d L)
    ((pauseScheduling st).deps d) (pauseScheduling st)
  have hsch := scheduleEffects_core
    (((pauseScheduling st).deps d).foldl (triggerStep d L) (pauseScheduling st)) d
  constructor
  · exact (coreState_resetScheduling _).trans
      ((hsch.1.trans hfold.1).trans (coreState_pauseScheduling st))
  constructor
  · show (resetScheduling _).pauseScheduleStack = _
    rw [pauseScheduleStack_resetScheduling, hsch.2.1, hfold.2.1]
    show st.pauseScheduleStack + 1 - 1 = _
    omega
  · exact (arr_resetScheduling _).trans (hsch.2.2.trans hfold.2.2)

theorem triggerDepStep_core (s : KState) (od : Option Nat) :
    coreState (triggerDepStep s od) = coreState s ∧
    (triggerDepStep s od).pauseScheduleStack = s.pauseScheduleStack ∧
    (triggerDepStep s od).arr = s.arr := by
  cases od with
  | none => exact ⟨rfl, rfl, rfl⟩
  | some d => exact triggerEffects_core s d 2

/-- `trigger` likewise: collection plus Dirty-level triggering leaves all
dependency data, track ids, the raw array and the pause stack unchanged. -/
theorem trigger_core (st : KState) (kind : TargetKind) (ttype : TriggerOp)
    (key : Option RKey) (newLength : Nat) :
    coreState (trigger st kind ttype key newLength) = coreState st ∧
    (trigger st kind ttype key newLength).pauseScheduleStack =
      st.pauseScheduleStack ∧
    (trigger st kind ttype key newLength).arr = st.arr := by
  unfold trigger
  split
  · have hfold := foldl_core_preserved triggerDepStep triggerDepStep_core
      (collectDeps st.targetKeys kind ttype key newLength) (pauseScheduling st)
    refine ⟨?_, ?_, ?_⟩
    · exact (coreState_resetScheduling _).trans
        (hfold.1.trans (coreState_pauseScheduling st))
    · show (resetScheduling _).pauseScheduleStack = _
      rw [pauseScheduleStack_resetScheduling, hfold.2.1]
      show st.pauseScheduleStack + 1 - 1 = _
      omega
    · exact (arr_resetScheduling _).trans hfold.2.2
  · exact ⟨rfl, rfl, rfl⟩

theorem track_of_not_shouldTrack (st : KState) (k : RKey)
    (h : st.shouldTrack = false) : track st k = st := by
  unfold track
  simp [h]

/-- With tracking suspended, every proxy trap keeps the core state (all
dependency records, track ids, the tracking flag and stack) and the pause
stack unchanged; only the raw array, the queue and the drain log can move. -/
theorem runTrap_core (st : KState) (t : ArrayTrap)
    (h : st.shouldTrack = false) :
    coreState (runTrap st t) = coreState st ∧
    (runTrap st t).pauseScheduleStack = st.pauseScheduleStack := by
  cases t with
  | getLength =>
    have heq : runTrap st ArrayTrap.getLength = st :=
      track_of_not_shouldTrack st lengthKey h
    exact ⟨congrArg coreState heq, congrArg (fun x => x.pauseScheduleStack) heq⟩
  | getIdx n =>
    have heq : runTrap st (ArrayTrap.getIdx n) = st :=
      track_of_not_shouldTrack st (RKey.idx n) h
    exact ⟨congrArg coreState heq, congrArg (fun x => x.pauseScheduleStack) heq⟩
  | setIdx n v =>
    unfold runTrap proxySetIdx
    simp only
    split
    · exact ⟨(trigger_core _ _ _ _ _).1, (trigger_core _ _ _ _ _).2.1⟩
    · split
      · exact ⟨(trigger_core _ _ _ _ _).1, (trigger_core _ _ _ _ _).2.1⟩
      · exact ⟨rfl, rfl⟩
  | setLength m =>
    unfold runTrap proxySetLength
    simp only
    split
    · exact ⟨(trigger_core _ _ _ _ _).1, (trigger_core _ _ _ _ _).2.1⟩
    · exact ⟨rfl, rfl⟩
  | delIdx n =>
    unfold runTrap proxyDeleteIdx
    simp only
    split
    · exact ⟨(trigger_core _ _ _ _ _).1, (trigger_core _ _ _ _ _).2.1⟩
    · exact ⟨rfl, rfl⟩

theorem coreState_shouldTrack_eq {a b : KState}
    (h : coreState a = coreState b) : a.shouldTrack = b.shouldTrack :=
  congrArg (fun x => x.2.2.2.2.2.1) h

theorem runTraps_core (ts : List ArrayTrap) :
    ∀ st : KState, st.shouldTrack = false →
      coreState (runTraps ts st) = coreState st ∧
      (runTraps ts st).pauseScheduleStack = st.pauseScheduleStack := by
  induction ts with
  | nil => intro st _; exact ⟨rfl, rfl⟩
  | cons t ts ih =>
    intro st h
    have h1 := runTrap_core st t h
    have h2 := ih (runTrap st t) ((coreState_shouldTrack_eq h1.1).trans h)
    exact ⟨h2.1.trans h1.1, h2.2.trans h1.2⟩

theorem resetTracking_fields (s : KState) :
    (resetTracking s).effects = s.effects ∧
    (resetTracking s).deps = s.deps ∧
    (resetTracking s).targetKeys = s.targetKeys ∧
    (resetTracking s).pauseScheduleStack = s.pauseScheduleStack ∧
    (resetTracking s).arr = s.arr ∧
    (resetTracking s).queue = s.queue ∧
    (resetTracking s).ranLog = s.ranLog := by
  cases h : s.trackStack <;> simp [resetTracking, h]

theorem resetTracking_cons (s : KState) (b : Bool) (rest : List Bool)
    (h : s.trackStack = b :: rest) :
    (resetTracking s).shouldTrack = b ∧ (resetTracking s).trackStack = rest := by
  simp [resetTracking, h]

theorem coreState_trackStack_eq {a b : KState}
    (h : coreState a = coreState b) : a.trackStack = b.trackStack :=
  congrArg (fun x => x.2.2.2.2.2.2.1) h

theorem coreState_deps_eq {a b : KState}
    (h : coreState a = coreState b) : a.deps = b.deps :=
  congrArg (fun x => x.2.1) h

theorem coreState_targetKeys_eq {a b : KState}
    (h : coreState a = coreState b) : a.targetKeys = b.targetKeys :=
  congrArg (fun x => x.2.2.1) h

theorem coreState_effCore_eq {a b : KState}
    (h : coreState a = coreState b) (e : Nat) :
    effCore (a.effects e) = effCore (b.effects e) :=
  congrFun (congrArg (fun x => x.1) h) e

/-- Claim C2: the instrumented sequence-mutation methods (push, pop, shift,
unshift, splice) run the underlying array operation — an arbitrary sequence
of proxy traps — with dependency tracking and effect scheduling suspended,
and restore both on return: the tracking flag, the tracking stack and the
schedule-pause stack come back to their entry values, and no dependency
is recorded anywhere (dep maps, depsMap keys and all per-effect dependency
bookkeeping are unchanged).  Consequently, in the concrete world of
`const arr = reactive([]); effect(() => arr.push(1))`, the effect body runs
exactly once, nothing is ever enqueued or drained, no dependency is
tracked, and a later external `arr.push(2)` does not re-run it. -/
theorem arrayInstrumentation_suspends_tracking :
    (∀ (ts : List ArrayTrap) (st : KState),
      (instrumented ts st).shouldTrack = st.shouldTrack ∧
      (instrumented ts st).trackStack = st.trackStack ∧
      (instrumented ts st).pauseScheduleStack = st.pauseScheduleStack ∧
      (instrumented ts st).targetKeys = st.targetKeys ∧
      (instrumented ts st).deps = st.deps ∧
      ∀ e, effCore ((instrumented ts st).effects e) = effCore (st.effects e)) ∧
    (pushWorld1.effects 0).runCount = 1 ∧
    pushWorld1.queue = [] ∧
    pushWorld1.ranLog = [] ∧
    pushWorld1.targetKeys = [] ∧
    pushWorld1.arr = [1] ∧
    pushWorld1.shouldTrack = true ∧
    pushWorld1.pauseScheduleStack = 0 ∧
    (pushWorld2.effects 0).runCount = 1 ∧
    pushWorld2.ranLog = [] ∧
    pushWorld2.queue = [] := by
  constructor
  · intro ts st
    have hrt := runTraps_core ts (pauseScheduling (pauseTracking st)) rfl
    have hcore3 :
        coreState (resetScheduling (runTraps ts (pauseScheduling (pauseTracking st)))) =
          coreState (pauseScheduling (pauseTracking st)) :=
      (coreState_resetScheduling _).trans hrt.1
    have hts :
        (resetScheduling (runTraps ts (pauseScheduling (pauseTracking st)))).trackStack =
          st.shouldTrack :: st.trackStack :=
      coreState_trackStack_eq hcore3
    have hreset := resetTracking_cons _ _ _ hts
    have hfields := resetTracking_fields
      (resetScheduling (runTraps ts (pauseScheduling (pauseTracking st))))
    refine ⟨hreset.1, hreset.2, ?_, ?_, ?_, ?_⟩
    · show (resetTracking _).pauseScheduleStack = _
      rw [hfields.2.2.2.1, pauseScheduleStack_resetScheduling, hrt.2]
      show st.pauseScheduleStack + 1 - 1 = _
      omega
    · show (resetTracking _).targetKeys = _
      rw [hfields.2.2.1]
      exact (coreState_targetKeys_eq hcore3).trans rfl
    · show (resetTracking _).deps = _
      rw [hfields.2.1]
      exact (coreState_deps_eq hcore3).trans rfl
    · intro e
      show effCore ((resetTracking _).effects e) = _
      rw [hfields.1]
      exact (coreState_effCore_eq hcore3 e).trans rfl
  · refine ⟨?_, ?_, ?_, ?_, ?_, ?_, ?_, ?_, ?_, ?_⟩ <;> decide

/-! ### Claim C1: the dep collection performed by `trigger`. -/

theorem mapGet_mem {κ α : Type} [DecidableEq κ] {m : List (κ × α)} {k : κ}
    {v : α} (h : mapGet m k = some v) : (k, v) ∈ m := by
  unfold mapGet at h
  cases hf : m.find? (fun p => p.1 = k) with
  | none => rw [hf] at h; exact absurd h (by simp)
  | some p =>
    rw [hf] at h
    have hp := List.find?_some hf
    have hmem := List.mem_of_find?_eq_some hf
    have hk : p.1 = k := by simpa using hp
    have hv : p.2 = v := by simpa using h
    have : p = (k, v) := Prod.ext hk hv
    rwa [this] at hmem

theorem mapGet_of_mem {κ α : Type} [DecidableEq κ] {m : List (κ × α)}
    {k : κ} {v : α} (hfst : (m.map Prod.fst).Nodup) (hmem : (k, v) ∈ m) :
    mapGet m k = some v := by
  induction m with
  | nil => cases hmem
  | cons p rest ih =>
    rcases List.mem_cons.mp hmem with h | h
    · subst h
      unfold mapGet
      simp
    · have hfst' : (rest.map Prod.fst).Nodup := (List.nodup_cons.mp hfst).2
      have hne : p.1 ≠ k := by
        intro hk
        have hmem2 : k ∈ rest.map Prod.fst := List.mem_map.mpr ⟨(k, v), h, rfl⟩
        rw [← hk] at hmem2
        exact (List.nodup_cons.mp hfst).1 hmem2
      have hd : (decide (p.1 = k)) = false := decide_eq_false hne
      unfold mapGet
      rw [List.find?_cons, hd]
      exact ih hfst' h

theorem snd_inj_of_nodup {κ α : Type} {m : List (κ × α)}
    (hsnd : (m.map Prod.snd).Nodup) {k1 k2 : κ} {v : α}
    (h1 : (k1, v) ∈ m) (h2 : (k2, v) ∈ m) : k1 = k2 := by
  have := List.inj_on_of_nodup_map hsnd h1 h2 rfl
  exact congrArg Prod.fst this

theorem mem_filter_map_some {m : List (RKey × Nat)}
    (hsnd : (m.map Prod.snd).Nodup) {k : RKey} {d : Nat}
    (hmem : (k, d) ∈ m) (pred : RKey × Nat → Bool) :
    (some d ∈ (m.filter pred).map (fun p => some p.2)) ↔ pred (k, d) = true := by
  constructor
  · intro h
    obtain ⟨p, hp, hpd⟩ := List.mem_map.mp h
    have hpm := List.mem_of_mem_filter hp
    have hpred := List.of_mem_filter hp
    have hd : p.2 = d := by simpa using hpd
    have hpm2 : (p.1, d) ∈ m := by rw [← hd]; simpa using hpm
    have hk : p.1 = k := snd_inj_of_nodup hsnd hpm2 hmem
    have hpe : p = (k, d) := Prod.ext hk hd
    rwa [hpe] at hpred
  · intro h
    exact List.mem_map.mpr ⟨(k, d), List.mem_filter.mpr ⟨hmem, h⟩, rfl⟩

theorem mapGet_eq_some_iff_key {m : List (RKey × Nat)}
    (hfst : (m.map Prod.fst).Nodup) (hsnd : (m.map Prod.snd).Nodup)
    {k : RKey} {d : Nat} (hmem : (k, d) ∈ m) (k0 : RKey) :
    mapGet m k0 = some d ↔ k0 = k := by
  constructor
  · intro h
    exact snd_inj_of_nodup hsnd (mapGet_mem h) hmem
  · intro h
    subst h
    exact mapGet_of_mem hfst hmem

set_option linter.unnecessarySeqFocus false in
/-- Claim C1: for every trigger call, the deps collected from the depsMap
of the target are characterised as the claim states — CLEAR takes every
dep; setting `length` on an array takes the `length` dep and the dep of
every non-symbol key at least the new length; otherwise the dep of the key
is taken, plus the ITERATE dep (and for a Map the MAP-KEY-ITERATE dep) on
ADD and DELETE of a non-array, the `length` dep on ADD of an integer key
of an array, and the ITERATE dep on SET of a Map — and `trigger` then runs
`triggerEffects` at level Dirty (2) on exactly the collected deps, inside
a scheduling pause bracket. -/
theorem trigger_collects_affected_deps
    (depsMap : List (RKey × Nat)) (kind : TargetKind) (ttype : TriggerOp)
    (key : Option RKey) (newLength : Nat) (k : RKey) (d : Nat)
    (hfst : (depsMap.map Prod.fst).Nodup)
    (hsnd : (depsMap.map Prod.snd).Nodup)
    (hmem : (k, d) ∈ depsMap) :
    (some d ∈ collectDeps depsMap kind ttype key newLength ↔
      (ttype = TriggerOp.clearOp ∨
       (ttype ≠ TriggerOp.clearOp ∧ key = some lengthKey ∧
         kind = TargetKind.array ∧
         (k = lengthKey ∨ (k.isSymbolKey = false ∧ k.geLength newLength = true))) ∨
       (ttype ≠ TriggerOp.clearOp ∧
         ¬(key = some lengthKey ∧ kind = TargetKind.array) ∧
         (key = some k ∨
          (ttype = TriggerOp.addOp ∧ kind ≠ TargetKind.array ∧
            RKey.iterateKey = k) ∨
          (ttype = TriggerOp.addOp ∧ kind = TargetKind.map ∧
            RKey.mapKeyIterateKey = k) ∨
          (ttype = TriggerOp.addOp ∧ kind = TargetKind.array ∧
            isIntegerKeyOpt key = true ∧ lengthKey = k) ∨
          (ttype = TriggerOp.deleteOp ∧ kind ≠ TargetKind.array ∧
            RKey.iterateKey = k) ∨
          (ttype = TriggerOp.deleteOp ∧ kind = TargetKind.map ∧
            RKey.mapKeyIterateKey = k) ∨
          (ttype = TriggerOp.setOp ∧ kind = TargetKind.map ∧
            RKey.iterateKey = k))))) ∧
    (∀ st : KState, st.trackedTarget = true →
      trigger st kind ttype key newLength =
        resetScheduling
          ((collectDeps st.targetKeys kind ttype key newLength).foldl
            triggerDepStep (pauseScheduling st))) := by
  constructor
  · have hget := mapGet_eq_some_iff_key hfst hsnd hmem
    have hget2 : ∀ k0 : RKey, (some d = mapGet depsMap k0) ↔ k0 = k :=
      fun k0 => eq_comm.trans (hget k0)
    by_cases hclear : ttype = TriggerOp.clearOp
    · rw [collectDeps.eq_def, if_pos hclear]
      exact iff_of_true (List.mem_map.mpr ⟨(k, d), hmem, rfl⟩) (Or.inl hclear)
    · by_cases hlen : key = some lengthKey ∧ kind = TargetKind.array
      · rw [collectDeps.eq_def, if_neg hclear, if_pos hlen]
        rw [mem_filter_map_some hsnd hmem]
        simp [hclear, hlen.1, hlen.2]
      · rw [collectDeps.eq_def, if_neg hclear, if_neg hlen]
        cases ttype with
        | clearOp => exact absurd rfl hclear
        | setOp =>
          cases key with
          | none =>
            cases kind <;>
              simp [hclear, hlen, hget, hget2, List.mem_append]
          | some k0 =>
            cases kind <;>
              simp [hclear, hlen, hget, hget2, List.mem_append] <;> tauto
        | addOp =>
          cases key with
          | none =>
            cases kind <;>
              simp [hclear, hlen, hget, hget2, List.mem_append, isIntegerKeyOpt]
          | some k0 =>
            cases kind <;> cases k0 <;>
              simp [hclear, hlen, hget, hget2, List.mem_append, isIntegerKeyOpt] <;> tauto
        | deleteOp =>
          cases key with
          | none =>
            cases kind <;>
              simp [hclear, hlen, hget, hget2, List.mem_append]
          | some k0 =>
            cases kind <;>
              simp [hclear, hlen, hget, hget2, List.mem_append] <;> tauto
  · intro st hst
    rw [trigger]
    simp [hst]

/-! ### Claim C3: what `triggerEffects` does to each subscribed effect. -/

theorem depGet_eq_mapGet (l : Dep) (e : Nat) : depGet l e = mapGet l e := rfl

/-- Per-effect result of the dirty-bump loop of `triggerEffects`: an effect
whose recorded track id is current and whose dirty level is below the
triggering level gets the new level; only when it was NotDirty (0) is the
should-schedule flag set and the trigger notify called. -/
def bumpEffect (L tid : Nat) (f : Eff) : Eff :=
  if f.dirtyLevel < L ∧ tid = f.trackId then
    if f.dirtyLevel = 0 then
      { f with dirtyLevel := L, shouldSchedule := true,
               triggerCount := f.triggerCount + 1 }
    else { f with dirtyLevel := L }
  else f

/-- The enqueue condition of `scheduleEffects`. -/
def schedReady (tid : Nat) (f : Eff) : Bool :=
  f.hasScheduler && f.shouldSchedule &&
    (decide (f.runnings = 0) || f.allowRecurse) && decide (tid = f.trackId)

/-- Per-effect result of one whole `triggerEffects` call. -/
def afterTrigger (L tid : Nat) (f : Eff) : Eff :=
  let f1 := bumpEffect L tid f
  if schedReady tid f1 then { f1 with shouldSchedule := false } else f1

/-- The effects whose schedulers one `triggerEffects` call enqueues, in dep
insertion order. -/
def newlyQueued (L : Nat) (entries : Dep) (effects : Nat → Eff) : List Nat :=
  (entries.filter
    (fun p => schedReady p.2 (bumpEffect L p.2 (effects p.1)))).map Prod.fst

theorem triggerStep_fields (d L : Nat) (s : KState) (p : Nat × Nat) :
    (triggerStep d L s p).deps = s.deps ∧
    (triggerStep d L s p).queue = s.queue ∧
    (triggerStep d L s p).ranLog = s.ranLog ∧
    (triggerStep d L s p).pauseScheduleStack = s.pauseScheduleStack := by
  unfold triggerStep
  simp only
  split
  · split <;> exact ⟨rfl, rfl, rfl, rfl⟩
  · exact ⟨rfl, rfl, rfl, rfl⟩

theorem triggerStep_effects_ne (d L : Nat) (s : KState) (p : Nat × Nat)
    (e : Nat) (hne : e ≠ p.1) :
    (triggerStep d L s p).effects e = s.effects e := by
  unfold triggerStep
  simp only
  split
  · split <;> simp [updateEff, hne]
  · rfl

theorem triggerStep_effects_eq (d L : Nat) (s : KState) (p : Nat × Nat)
    (hdg : depGet (s.deps d) p.1 = some p.2) :
    (triggerStep d L s p).effects p.1 = bumpEffect L p.2 (s.effects p.1) := by
  unfold triggerStep bumpEffect
  simp only [hdg, Option.some.injEq]
  split_ifs with h1 h2 <;> simp [updateEff]

theorem phase1_foldl (d L : Nat) (entries : List (Nat × Nat)) :
    ∀ s : KState,
      (∀ p ∈ entries, depGet (s.deps d) p.1 = some p.2) →
      ((entries.map Prod.fst).Nodup) →
      (entries.foldl (triggerStep d L) s).deps = s.deps ∧
      (entries.foldl (triggerStep d L) s).queue = s.queue ∧
      (entries.foldl (triggerStep d L) s).ranLog = s.ranLog ∧
      (entries.foldl (triggerStep d L) s).pauseScheduleStack =
        s.pauseScheduleStack ∧
      (∀ p ∈ entries,
        (entries.foldl (triggerStep d L) s).effects p.1 =
          bumpEffect L p.2 (s.effects p.1)) ∧
      (∀ e, e ∉ entries.map Prod.fst →
        (entries.foldl (triggerStep d L) s).effects e = s.effects e) := by
  induction entries with
  | nil =>
    intro s _ _
    refine ⟨rfl, rfl, rfl, rfl, ?_, ?_⟩
    · intro p hp
      exact absurd hp (List.not_mem_nil p)
    · intro e _
      rfl
  | cons q rest ih =>
    intro s hdg hnd
    have hq1 : q.1 ∉ rest.map Prod.fst := (List.nodup_cons.mp hnd).1
    have hnd' : (rest.map Prod.fst).Nodup := (List.nodup_cons.mp hnd).2
    have hstep := triggerStep_fields d L s q
    have hdg' : ∀ p ∈ rest, depGet ((triggerStep d L s q).deps d) p.1 = some p.2 := by
      intro p hp
      rw [hstep.1]
      exact hdg p (List.mem_cons_of_mem q hp)
    have ihs := ih (triggerStep d L s q) hdg' hnd'
    simp only [List.foldl_cons]
    refine ⟨ihs.1.trans hstep.1, ihs.2.1.trans hstep.2.1,
      ihs.2.2.1.trans hstep.2.2.1, ihs.2.2.2.1.trans hstep.2.2.2,
      ?_, ?_⟩
    · intro p hp
      rcases List.mem_cons.mp hp with h | h
      · subst h
        rw [ihs.2.2.2.2.2 p.1 hq1]
        exact triggerStep_effects_eq d L s p (hdg p (List.mem_cons_self p rest))
      · have hne : p.1 ≠ q.1 := by
          intro he
          exact hq1 (he ▸ List.mem_map.mpr ⟨p, h, rfl⟩)
        rw [ihs.2.2.2.2.1 p h, triggerStep_effects_ne d L s q p.1 hne]
    · intro e he
      have he1 : e ≠ q.1 := by
        intro h
        exact he (h ▸ List.mem_map.mpr ⟨q, List.mem_cons_self q rest, rfl⟩)
      have he2 : e ∉ rest.map Prod.fst := fun h =>
        he (List.mem_cons_of_mem _ h)
      rw [ihs.2.2.2.2.2 e he2, triggerStep_effects_ne d L s q e he1]

theorem scheduleStep_fields (d : Nat) (s : KState) (p : Nat × Nat) :
    (scheduleStep d s p).deps = s.deps ∧
    (scheduleStep d s p).ranLog = s.ranLog ∧
    (scheduleStep d s p).pauseScheduleStack = s.pauseScheduleStack := by
  unfold scheduleStep
  simp only
  split <;> exact ⟨rfl, rfl, rfl⟩

theorem scheduleStep_effects_ne (d : Nat) (s : KState) (p : Nat × Nat)
    (e : Nat) (hne : e ≠ p.1) :
    (scheduleStep d s p).effects e = s.effects e := by
  unfold scheduleStep
  simp only
  split <;> simp [updateEff, hne]

theorem scheduleStep_spec (d : Nat) (s : KState) (p : Nat × Nat)
    (hdg : depGet (s.deps d) p.1 = some p.2) :
    (scheduleStep d s p).effects p.1 =
      (if schedReady p.2 (s.effects p.1) then
        { s.effects p.1 with shouldSchedule := false }
       else s.effects p.1) ∧
    (scheduleStep d s p).queue =
      (if schedReady p.2 (s.effects p.1) then s.queue ++ [p.1] else s.queue) := by
  unfold scheduleStep
  simp only [hdg]
  have hiff : ((s.effects p.1).hasScheduler = true ∧
      (s.effects p.1).shouldSchedule = true ∧
      ((s.effects p.1).runnings = 0 ∨ (s.effects p.1).allowRecurse = true) ∧
      some p.2 = some (s.effects p.1).trackId) ↔
      schedReady p.2 (s.effects p.1) = true := by
    unfold schedReady
    simp [and_assoc]
  by_cases h : schedReady p.2 (s.effects p.1) = true
  · rw [if_pos (hiff.mpr h), if_pos h, if_pos h]
    constructor
    · simp [updateEff]
    · simp [updateEff]
  · rw [if_neg (fun hc => h (hiff.mp hc)), if_neg h, if_neg h]
    exact ⟨rfl, rfl⟩

theorem phase2_foldl (d : Nat) (entries : List (Nat × Nat)) :
    ∀ s : KState,
      (∀ p ∈ entries, depGet (s.deps d) p.1 = some p.2) →
      ((entries.map Prod.fst).Nodup) →
      (entries.foldl (scheduleStep d) s).deps = s.deps ∧
      (entries.foldl (scheduleStep d) s).ranLog = s.ranLog ∧
      (entries.foldl (scheduleStep d) s).pauseScheduleStack =
        s.pauseScheduleStack ∧
      (entries.foldl (scheduleStep d) s).queue =
        s.queue ++ (entries.filter
          (fun p => schedReady p.2 (s.effects p.1))).map Prod.fst ∧
      (∀ p ∈ entries,
        (entries.foldl (scheduleStep d) s).effects p.1 =
          (if schedReady p.2 (s.effects p.1) then
            { s.effects p.1 with shouldSchedule := false }
           else s.effects p.1)) ∧
      (∀ e, e ∉ entries.map Prod.fst →
        (entries.foldl (scheduleStep d) s).effects e = s.effects e) := by
  induction entries with
  | nil =>
    intro s _ _
    refine ⟨rfl, rfl, rfl, by simp, ?_, ?_⟩
    · intro p hp
      exact absurd hp (List.not_mem_nil p)
    · intro e _
      rfl
  | cons q rest ih =>
    intro s hdg hnd
    have hq1 : q.1 ∉ rest.map Prod.fst := (List.nodup_cons.mp hnd).1
    have hnd' : (rest.map Prod.fst).Nodup := (List.nodup_cons.mp hnd).2
    have hstep := scheduleStep_fields d s q
    have hspec := scheduleStep_spec d s q (hdg q (List.mem_cons_self q rest))
    have hdg' : ∀ p ∈ rest, depGet ((scheduleStep d s q).deps d) p.1 = some p.2 := by
      intro p hp
      rw [hstep.1]
      exact hdg p (List.mem_cons_of_mem q hp)
    have ihs := ih (scheduleStep d s q) hdg' hnd'
    have heffrest : ∀ p ∈ rest,
        (scheduleStep d s q).effects p.1 = s.effects p.1 := by
      intro p hp
      have hne : p.1 ≠ q.1 := by
        intro he
        exact hq1 (he ▸ List.mem_map.mpr ⟨p, hp, rfl⟩)
      exact scheduleStep_effects_ne d s q p.1 hne
    simp only [List.foldl_cons]
    refine ⟨ihs.1.trans hstep.1, ihs.2.1.trans hstep.2.1,
      ihs.2.2.1.trans hstep.2.2, ?_, ?_, ?_⟩
    · rw [ihs.2.2.2.1, hspec.2]
      have hfeq : (rest.filter
            (fun p => schedReady p.2 ((scheduleStep d s q).effects p.1))) =
          (rest.filter (fun p => schedReady p.2 (s.effects p.1))) := by
        apply List.filter_congr
        intro p hp
        rw [heffrest p hp]
      rw [hfeq]
      by_cases h : schedReady q.2 (s.effects q.1) = true
      · rw [if_pos h, List.filter_cons_of_pos (by simpa using h)]
        simp
      · rw [if_neg h,
          List.filter_cons_of_neg (by simpa using h)]
    · intro p hp
      rcases List.mem_cons.mp hp with h | h
      · subst h
        rw [ihs.2.2.2.2.2 p.1 hq1, hspec.1]
      · rw [ihs.2.2.2.2.1 p h, heffrest p h]
    · intro e he
      have he1 : e ≠ q.1 := by
        intro h
        exact he (h ▸ List.mem_map.mpr ⟨q, List.mem_cons_self q rest, rfl⟩)
      have he2 : e ∉ rest.map Prod.fst := fun h =>
        he (List.mem_cons_of_mem _ h)
      rw [ihs.2.2.2.2.2 e he2, scheduleStep_effects_ne d s q e he1]

theorem resetScheduling_effects (s : KState) :
    (resetScheduling s).effects = s.effects := by
  unfold resetScheduling
  by_cases h : s.pauseScheduleStack - 1 = 0 <;> simp [h]

theorem resetScheduling_deps (s : KState) :
    (resetScheduling s).deps = s.deps := by
  unfold resetScheduling
  by_cases h : s.pauseScheduleStack - 1 = 0 <;> simp [h]

theorem resetScheduling_no_drain (s : KState)
    (h : s.pauseScheduleStack - 1 ≠ 0) :
    (resetScheduling s).queue = s.queue ∧
    (resetScheduling s).ranLog = s.ranLog := by
  unfold resetScheduling
  simp [h]

theorem resetScheduling_drain (s : KState)
    (h : s.pauseScheduleStack - 1 = 0) :
    (resetScheduling s).queue = [] ∧
    (resetScheduling s).ranLog = s.ranLog ++ s.queue := by
  unfold resetScheduling
  simp [h]

/-- The claim about `triggerEffects` in the frozen form: for each effect of
the dep with current track id and dirty level below the triggering level,
the dirty level is bumped, the trigger notify is invoked, and the scheduler
is enqueued (or immediately drained) iff one is attached and the effect is
not running or allows recursion.  Checked per entry of the dep. -/
def c3ClaimCheck (st : KState) (d : Nat) (L : Nat) : Bool :=
  (st.deps d).all (fun p =>
    let f := st.effects p.1
    if p.2 = f.trackId ∧ f.dirtyLevel < L then
      let st2 := triggerEffects st d L
      decide ((st2.effects p.1).dirtyLevel = L) &&
      decide ((st2.effects p.1).triggerCount = f.triggerCount + 1) &&
      decide ((p.1 ∈ st2.queue ∨ p.1 ∈ st2.ranLog) ↔
        (f.hasScheduler = true ∧ (f.runnings = 0 ∨ f.allowRecurse = true)))
    else true)

/-- A reachable state for the C3 counterexample: one effect that an earlier
computed-style trigger left at MaybeDirty (1) with its scheduler already
queued (should-schedule flag consumed), seen by a second Dirty trigger while
an outer pause bracket is open. -/
def c3World : KState :=
  { effects := fun _ =>
      { active := true, allowRecurse := false, hasScheduler := true
        dirtyLevel := 1, trackId := 5, runnings := 0, shouldSchedule := false
        depsLength := 1, deps := [0], triggerCount := 0, runCount := 1 }
    deps := fun j => if j = 0 then [(0, 5)] else []
    trackedTarget := true
    targetKeys := [(RKey.str "value", 0)]
    nextDep := 1
    arr := []
    shouldTrack := true
    trackStack := []
    activeEffect := none
    pauseScheduleStack := 1
    queue := [0]
    ranLog := [] }

/-- Claim C3 counterexample: in `c3World` the single subscribed effect has
a matching track id, a dirty level (MaybeDirty) below the triggering level
(Dirty) and an attached scheduler while not running — yet `triggerEffects`
does not invoke its trigger notify and does not enqueue its scheduler,
because the source gates both on the previous level having been NotDirty
(and on the should-schedule flag).  The claim as stated is false here. -/
theorem triggerEffects_claim_counterexample :
    c3ClaimCheck c3World 0 2 = false ∧
    (c3World.effects 0).hasScheduler = true ∧
    (c3World.effects 0).runnings = 0 ∧
    (c3World.effects 0).dirtyLevel = 1 ∧
    depGet (c3World.deps 0) 0 = some (c3World.effects 0).trackId ∧
    ((triggerEffects c3World 0 2).effects 0).dirtyLevel = 2 ∧
    ((triggerEffects c3World 0 2).effects 0).triggerCount = 0 ∧
    (triggerEffects c3World 0 2).queue = c3World.queue ∧
    (triggerEffects c3World 0 2).ranLog = [] := by
  refine ⟨?_, ?_, ?_, ?_, ?_, ?_, ?_, ?_, ?_⟩ <;> decide

/-- Claim C3, amended to what effect.ts does: for each entry of the dep
(with current track id and dirty level below the triggering level) the
dirty level is bumped; only when the previous level was NotDirty is the
should-schedule flag set and the trigger notify invoked; afterwards
`scheduleEffects` enqueues — and `resetScheduling` drains only once the
pause stack is fully unwound — exactly the effects with a scheduler, the
should-schedule flag set, not running (or allowing recursion) and a
current track id, clearing their flag. -/
theorem triggerEffects_spec (st : KState) (d : Nat) (L : Nat)
    (hnd : ((st.deps d).map Prod.fst).Nodup) :
    (∀ p ∈ st.deps d,
      (triggerEffects st d L).effects p.1 =
        afterTrigger L p.2 (st.effects p.1)) ∧
    (∀ e, e ∉ (st.deps d).map Prod.fst →
      (triggerEffects st d L).effects e = st.effects e) ∧
    (triggerEffects st d L).deps = st.deps ∧
    (st.pauseScheduleStack ≠ 0 →
      (triggerEffects st d L).queue =
        st.queue ++ newlyQueued L (st.deps d) st.effects ∧
      (triggerEffects st d L).ranLog = st.ranLog) ∧
    (st.pauseScheduleStack = 0 →
      (triggerEffects st d L).queue = [] ∧
      (triggerEffects st d L).ranLog =
        st.ranLog ++ st.queue ++ newlyQueued L (st.deps d) st.effects) := by
  have hdg0 : ∀ p ∈ st.deps d,
      depGet ((pauseScheduling st).deps d) p.1 = some p.2 := by
    intro p hp
    rw [depGet_eq_mapGet]
    exact mapGet_of_mem hnd (by simpa using hp)
  have h1 := phase1_foldl d L (st.deps d) (pauseScheduling st) hdg0 hnd
  have hdg1 : ∀ p ∈ st.deps d,
      depGet (((st.deps d).foldl (triggerStep d L) (pauseScheduling st)).deps d)
        p.1 = some p.2 := by
    intro p hp
    rw [h1.1]
    exact hdg0 p hp
  have h2 := phase2_foldl d (st.deps d)
    ((st.deps d).foldl (triggerStep d L) (pauseScheduling st)) hdg1 hnd
  have hsch :
      scheduleEffects ((st.deps d).foldl (triggerStep d L) (pauseScheduling st)) d =
      (st.deps d).foldl (scheduleStep d)
        ((st.deps d).foldl (triggerStep d L) (pauseScheduling st)) := by
    unfold scheduleEffects
    rw [h1.1]
    rfl
  have hTE : triggerEffects st d L =
      resetScheduling ((st.deps d).foldl (scheduleStep d)
        ((st.deps d).foldl (triggerStep d L) (pauseScheduling st))) := by
    unfold triggerEffects
    rw [← hsch]
    rfl
  have hfilter :
      ((st.deps d).filter (fun p => schedReady p.2
        (((st.deps d).foldl (triggerStep d L) (pauseScheduling st)).effects p.1))) =
      ((st.deps d).filter (fun p => schedReady p.2
        (bumpEffect L p.2 (st.effects p.1)))) := by
    apply List.filter_congr
    intro p hp
    rw [h1.2.2.2.2.1 p hp]
    rfl
  have hstack :
      ((st.deps d).foldl (scheduleStep d)
        ((st.deps d).foldl (triggerStep d L) (pauseScheduling st))).pauseScheduleStack =
      st.pauseScheduleStack + 1 := by
    rw [h2.2.2.1, h1.2.2.2.1]
    rfl
  refine ⟨?_, ?_, ?_, ?_, ?_⟩
  · intro p hp
    rw [hTE, congrFun (resetScheduling_effects _) p.1,
      h2.2.2.2.2.1 p hp, h1.2.2.2.2.1 p hp]
    rfl
  · intro e he
    rw [hTE, congrFun (resetScheduling_effects _) e,
      h2.2.2.2.2.2 e he, h1.2.2.2.2.2 e he]
    rfl
  · rw [hTE, resetScheduling_deps, h2.1, h1.1]
    rfl
  · intro hne
    have hd : ((st.deps d).foldl (scheduleStep d)
        ((st.deps d).foldl (triggerStep d L) (pauseScheduling st))).pauseScheduleStack
        - 1 ≠ 0 := by
      rw [hstack]
      omega
    have hr := resetScheduling_no_drain _ hd
    rw [hTE]
    constructor
    · rw [hr.1, h2.2.2.2.1, hfilter, h1.2.1]
      rfl
    · rw [hr.2, h2.2.1, h1.2.2.1]
      rfl
  · intro hze
    have hd : ((st.deps d).foldl (scheduleStep d)
        ((st.deps d).foldl (triggerStep d L) (pauseScheduling st))).pauseScheduleStack
        - 1 = 0 := by
      rw [hstack, hze]
      decide
    have hr := resetScheduling_drain _ hd
    rw [hTE]
    constructor
    · rw [hr.1]
    · rw [hr.2, h2.2.1, h1.2.2.1, h2.2.2.2.1, hfilter, h1.2.1]
      show st.ranLog ++ (st.queue ++ _) = _
      rw [List.append_assoc]
      rfl

/-- Witness for the amended C3 theorem at the counterexample world. -/
theorem triggerEffects_spec_witness :
    (triggerEffects c3World 0 2).effects 0 =
      afterTrigger 2 5 (c3World.effects 0) :=
  (triggerEffects_spec c3World 0 2 (by decide)).1 (0, 5) (by decide)

/-! ### Claim C4: the subscription invariant of the effect run protocol.

A complete run of an effect is: `preCleanupEffect`, a sequence of
`trackEffect` calls (one per dependency read while the body executes), then
`postCleanupEffect`.  The claim is that afterwards an effect sits in a dep
exactly when the dep's recorded track id is the effect's current one. -/

theorem depGet_depSet_self (l : Dep) (e tid : Nat) :
    depGet (depSet l e tid) e = some tid := by
  unfold depSet
  split
  case isTrue h =>
    induction l with
    | nil => simp at h
    | cons p rest ih =>
      by_cases hp : p.1 = e
      · unfold depGet
        simp [List.find?_cons, hp]
      · have h' : (rest.find? (fun p => p.1 = e)).isSome := by
          rw [List.find?_cons_of_neg] at h
          · exact h
          · simp [hp]
        have ihh := ih h'
        unfold depGet at ihh ⊢
        rw [List.map_cons, if_neg hp, List.find?_cons_of_neg]
        · exact ihh
        · simp [hp]
  case isFalse h =>
    have hnone : l.find? (fun p => p.1 = e) = none :=
      Option.not_isSome_iff_eq_none.mp h
    unfold depGet
    rw [List.find?_append, hnone]
    simp

theorem depGet_depDelete_self (l : Dep) (e : Nat) :
    depGet (depDelete l e) e = none := by
  unfold depDelete depGet
  rw [List.find?_eq_none.mpr]
  · rfl
  · intro p hp
    have := List.of_mem_filter hp
    simpa using this

theorem setDep_deps_self (s : KState) (d : Nat) (l : Dep) :
    (setDep s d l).deps d = l := by
  simp [setDep]

theorem setDep_deps_other (s : KState) (d : Nat) (l : Dep) (x : Nat)
    (hx : x ≠ d) : (setDep s d l).deps x = s.deps x := by
  simp [setDep, hx]

theorem cleanupDepEffect_effects (s : KState) (d e : Nat) :
    (cleanupDepEffect s d e).effects = s.effects := by
  unfold cleanupDepEffect
  split
  · rfl
  · split
    · split <;> rfl
    · rfl

theorem cleanupDepEffect_depGet_other (s : KState) (d e x : Nat)
    (hx : x ≠ d) :
    depGet ((cleanupDepEffect s d e).deps x) e = depGet (s.deps x) e := by
  unfold cleanupDepEffect
  split
  · rfl
  · split
    · split
      · show depGet ((setDep s d _).deps x) e = _
        rw [setDep_deps_other s d _ x hx]
      · rw [setDep_deps_other s d _ x hx]
    · rfl

theorem cleanupDepEffect_mono (s : KState) (d e x : Nat) (t : Nat)
    (h : depGet ((cleanupDepEffect s d e).deps x) e = some t) :
    depGet (s.deps x) e = some t := by
  by_cases hx : x = d
  · subst hx
    unfold cleanupDepEffect at h
    revert h
    split
    · exact fun h => h
    · split
      · split
        · intro h
          rw [show ({ setDep s x (depDelete (s.deps x) e) with
              targetKeys := s.targetKeys.filter (fun p => p.2 ≠ x) } :
                KState).deps x = depDelete (s.deps x) e from
              setDep_deps_self s x _] at h
          rw [depGet_depDelete_self] at h
          cases h
        · intro h
          rw [setDep_deps_self s x _] at h
          rw [depGet_depDelete_self] at h
          cases h
      · exact fun h => h
  · rwa [cleanupDepEffect_depGet_other s d e x hx] at h

theorem cleanupDepEffect_keep (s : KState) (d e x : Nat)
    (h : depGet (s.deps x) e = some (s.effects e).trackId) :
    depGet ((cleanupDepEffect s d e).deps x) e =
      some (s.effects e).trackId := by
  by_cases hx : x = d
  · subst hx
    unfold cleanupDepEffect
    split
    next hn => exact h
    next t hs =>
      rw [h] at hs
      have ht : (s.effects e).trackId = t := Option.some.inj hs
      rw [if_neg (by omega)]
      exact h
  · rwa [cleanupDepEffect_depGet_other s d e x hx]

theorem cleanupDepEffect_removes (s : KState) (e x : Nat) (t : Nat)
    (h : depGet ((cleanupDepEffect s x e).deps x) e = some t) :
    t = (s.effects e).trackId := by
  revert h
  unfold cleanupDepEffect
  split
  case h_1 hn =>
    intro h
    rw [hn] at h
    cases h
  case h_2 t0 hs =>
    split
    case isTrue hne =>
      split
      · intro h
        rw [show ({ setDep s x (depDelete (s.deps x) e) with
            targetKeys := s.targetKeys.filter (fun p => p.2 ≠ x) } :
              KState).deps x = depDelete (s.deps x) e from
            setDep_deps_self s x _] at h
        rw [depGet_depDelete_self] at h
        cases h
      · intro h
        rw [setDep_deps_self s x _] at h
        rw [depGet_depDelete_self] at h
        cases h
    case isFalse hne =>
      intro h
      rw [hs] at h
      have ht : t0 = t := Option.some.inj h
      omega

theorem mem_set_or (l : List Nat) (n : Nat) (a x : Nat) (h : x ∈ l)
    (hn : n < l.length) : x ∈ l.set n a ∨ l[n] = x := by
  obtain ⟨i, hi, hx⟩ := List.mem_iff_getElem.mp h
  by_cases he : n = i
  · subst he
    right
    exact hx
  · left
    apply List.mem_iff_getElem.mpr
    refine ⟨i, by simpa using hi, ?_⟩
    rw [List.getElem_set_ne he]
    exact hx

theorem take_set_self (l : List Nat) (n : Nat) (a : Nat) :
    (l.set n a).take n = l.take n := by
  apply List.ext_getElem?
  intro j
  by_cases hj : j < n
  · rw [List.getElem?_take, List.getElem?_take]
    simp only [hj, if_pos]
    rw [List.getElem?_set]
    rw [if_neg (by omega)]
  · rw [List.getElem?_take, List.getElem?_take]
    simp [hj]

/-- The invariant maintained between two `trackEffect` calls inside a run:
deps recorded this run (the first `depsLength` slots) carry the current
track id, anything carrying the current id is among them, any recorded dep
is in the effect's dep array, and no recorded id exceeds the current one. -/
def MidInv (e : Nat) (s : KState) : Prop :=
  (s.effects e).depsLength ≤ (s.effects e).deps.length ∧
  (∀ x ∈ (s.effects e).deps.take (s.effects e).depsLength,
      depGet (s.deps x) e = some (s.effects e).trackId) ∧
  (∀ x, depGet (s.deps x) e = some (s.effects e).trackId →
      x ∈ (s.effects e).deps.take (s.effects e).depsLength) ∧
  (∀ x, (depGet (s.deps x) e).isSome → x ∈ (s.effects e).deps) ∧
  (∀ x t, depGet (s.deps x) e = some t → t ≤ (s.effects e).trackId)

theorem updateEff_effects_self (st : KState) (e : Nat) (g : Eff → Eff) :
    (updateEff st e g).effects e = g (st.effects e) := by
  simp [updateEff]

theorem depGet_track_base (s : KState) (d e x : Nat) :
    depGet ((setDep s d (depSet (s.deps d) e (s.effects e).trackId)).deps x) e =
      if x = d then some (s.effects e).trackId else depGet (s.deps x) e := by
  by_cases hx : x = d
  · subst hx
    rw [setDep_deps_self, depGet_depSet_self, if_pos rfl]
  · rw [setDep_deps_other _ _ _ _ hx, if_neg hx]

/-- Package for establishing `MidInv` of a state from its data. -/
theorem midInv_of_parts (s2 : KState) (e : Nat) (T : Nat) (NEW : List Nat)
    (DL : Nat)
    (heff1 : (s2.effects e).trackId = T)
    (heff2 : (s2.effects e).deps = NEW)
    (heff3 : (s2.effects e).depsLength = DL)
    (h0 : DL ≤ NEW.length)
    (h1 : ∀ x ∈ NEW.take DL, depGet (s2.deps x) e = some T)
    (h4 : ∀ x, depGet (s2.deps x) e = some T → x ∈ NEW.take DL)
    (h2 : ∀ x, (depGet (s2.deps x) e).isSome → x ∈ NEW)
    (h3 : ∀ x t, depGet (s2.deps x) e = some t → t ≤ T) : MidInv e s2 := by
  unfold MidInv
  rw [heff1, heff2, heff3]
  exact ⟨h0, h1, h4, h2, h3⟩

theorem trackEffect_midInv (s : KState) (e d : Nat) (h : MidInv e s) :
    MidInv e (trackEffect s e d) ∧
    ((trackEffect s e d).effects e).trackId = (s.effects e).trackId := by
  obtain ⟨hlen, hM1, hM4, hM2, hM3⟩ := h
  by_cases hc : depGet (s.deps d) e ≠ some (s.effects e).trackId
  case neg =>
    unfold trackEffect
    rw [if_neg hc]
    exact ⟨⟨hlen, hM1, hM4, hM2, hM3⟩, rfl⟩
  case pos =>
    have hbase := depGet_track_base s d e
    unfold trackEffect
    rw [if_pos hc]
    split
    next od hod =>
      have hex := List.get?_eq_some.mp hod
      have hlt : (s.effects e).depsLength < (s.effects e).deps.length := hex.1
      have hDod : (s.effects e).deps[(s.effects e).depsLength] = od := by
        have := hex.2
        simpa using this
      by_cases hodd : od ≠ d
      case pos =>
        rw [if_pos hodd]
        have heffc : (cleanupDepEffect (setDep s d (depSet (s.deps d) e
            (s.effects e).trackId)) od e).effects = s.effects :=
          cleanupDepEffect_effects _ od e
        have hkeep : ∀ x, depGet ((setDep s d (depSet (s.deps d) e
            (s.effects e).trackId)).deps x) e = some (s.effects e).trackId →
            depGet ((cleanupDepEffect (setDep s d (depSet (s.deps d) e
              (s.effects e).trackId)) od e).deps x) e =
              some (s.effects e).trackId := by
          intro x hx
          exact cleanupDepEffect_keep _ od e x hx
        have hmono : ∀ x t, depGet ((cleanupDepEffect (setDep s d
            (depSet (s.deps d) e (s.effects e).trackId)) od e).deps x) e =
              some t →
            depGet ((setDep s d (depSet (s.deps d) e
              (s.effects e).trackId)).deps x) e = some t := by
          intro x t hx
          exact cleanupDepEffect_mono _ od e x t hx
        have hrem : ∀ t, depGet ((cleanupDepEffect (setDep s d
            (depSet (s.deps d) e (s.effects e).trackId)) od e).deps od) e =
              some t → t = (s.effects e).trackId := by
          intro t hx
          exact cleanupDepEffect_removes
            (setDep s d (depSet (s.deps d) e (s.effects e).trackId)) e od t hx
        have hNEWlen : ((s.effects e).deps.set (s.effects e).depsLength d).length =
            (s.effects e).deps.length := by simp
        have htk : ((s.effects e).deps.set (s.effects e).depsLength d).take
            ((s.effects e).depsLength + 1) =
            (s.effects e).deps.take (s.effects e).depsLength ++ [d] := by
          rw [List.take_succ, take_set_self,
            List.getElem?_set_self (by omega)]
          rfl
        constructor
        · refine midInv_of_parts _ e (s.effects e).trackId
            ((s.effects e).deps.set (s.effects e).depsLength d)
            ((s.effects e).depsLength + 1)
            (by simp [updateEff_effects_self, heffc])
            (by simp [updateEff_effects_self, heffc])
            (by simp [updateEff_effects_self, heffc])
            (by rw [hNEWlen]; omega) ?_ ?_ ?_ ?_
          · rw [htk]
            intro x hx
            show depGet ((cleanupDepEffect _ od e).deps x) e = _
            apply hkeep
            rw [hbase]
            by_cases hxd : x = d
            · rw [if_pos hxd]
            · rw [if_neg hxd]
              rcases List.mem_append.mp hx with hxl | hxr
              · exact hM1 x hxl
              · exact absurd (by simpa using hxr) hxd
          · rw [htk]
            intro x hx
            have hx1 := hmono x _ hx
            rw [hbase] at hx1
            by_cases hxd : x = d
            · exact List.mem_append.mpr (Or.inr (by simp [hxd]))
            · rw [if_neg hxd] at hx1
              exact List.mem_append.mpr (Or.inl (hM4 x hx1))
          · intro x hx
            obtain ⟨t, ht⟩ := Option.isSome_iff_exists.mp hx
            have hx1 := hmono x t ht
            rw [hbase] at hx1
            by_cases hxd : x = d
            · subst hxd
              apply List.mem_iff_getElem.mpr
              refine ⟨(s.effects e).depsLength, by simpa using hlt, ?_⟩
              rw [List.getElem_set_self]
            · rw [if_neg hxd] at hx1
              have hxdeps : x ∈ (s.effects e).deps := hM2 x (by rw [hx1]; rfl)
              rcases mem_set_or (s.effects e).deps (s.effects e).depsLength d x
                  hxdeps (by omega) with hin | hatpos
              · exact hin
              · have hxod : x = od := by rw [← hDod, hatpos]
                subst hxod
                have hteq := hrem t ht
                subst hteq
                have : x ∈ (s.effects e).deps.take (s.effects e).depsLength :=
                  hM4 x hx1
                rw [← take_set_self (s.effects e).deps
                  (s.effects e).depsLength d] at this
                exact List.take_subset _ _ this
          · intro x t hx
            have hx1 := hmono x t hx
            rw [hbase] at hx1
            by_cases hxd : x = d
            · rw [if_pos hxd] at hx1
              have := Option.some.inj hx1
              omega
            · rw [if_neg hxd] at hx1
              exact hM3 x t hx1
        · simp [updateEff_effects_self, heffc]
      case neg =>
        rw [if_neg hodd]
        have hodd2 : od = d := not_not.mp hodd
        have hge2 : (s.effects e).deps[(s.effects e).depsLength]? = some od := by
          rw [← List.get?_eq_getElem?]
          exact hod
        have htk : (s.effects e).deps.take ((s.effects e).depsLength + 1) =
            (s.effects e).deps.take (s.effects e).depsLength ++ [d] := by
          rw [List.take_succ, hge2, hodd2]
          rfl
        constructor
        · refine midInv_of_parts _ e (s.effects e).trackId
            ((s.effects e).deps) ((s.effects e).depsLength + 1)
            (by simp [updateEff_effects_self, setDep])
            (by simp [updateEff_effects_self, setDep])
            (by simp [updateEff_effects_self, setDep])
            (by omega) ?_ ?_ ?_ ?_ <;>
              (intro x
               rw [show (updateEff (setDep s d (depSet (s.deps d) e
                   (s.effects e).trackId)) e (fun f => { f with
                     depsLength := f.depsLength + 1 })).deps =
                 (setDep s d (depSet (s.deps d) e (s.effects e).trackId)).deps
                 from rfl, hbase])
          · rw [htk]
            intro hx
            by_cases hxd : x = d
            · rw [if_pos hxd]
            · rw [if_neg hxd]
              rcases List.mem_append.mp hx with hxl | hxr
              · exact hM1 x hxl
              · exact absurd (by simpa using hxr) hxd
          · rw [htk]
            intro hx
            by_cases hxd : x = d
            · exact List.mem_append.mpr (Or.inr (by simp [hxd]))
            · rw [if_neg hxd] at hx
              exact List.mem_append.mpr (Or.inl (hM4 x hx))
          · intro hx
            by_cases hxd : x = d
            · rw [hxd, ← hodd2, ← hDod]
              exact List.getElem_mem _
            · rw [if_neg hxd] at hx
              exact hM2 x hx
          · intro t hx
            by_cases hxd : x = d
            · rw [if_pos hxd] at hx
              have := Option.some.inj hx
              omega
            · rw [if_neg hxd] at hx
              exact hM3 x t hx
        · simp [updateEff_effects_self, setDep]

    next hod =>
      have hge : (s.effects e).deps.length ≤ (s.effects e).depsLength :=
        List.get?_eq_none.mp hod
      have hDL : (s.effects e).depsLength = (s.effects e).deps.length :=
        le_antisymm hlen hge
      have htk : ((s.effects e).deps ++ [d]).take ((s.effects e).depsLength + 1) =
          (s.effects e).deps ++ [d] :=
        List.take_of_length_le (by simp [hDL])
      constructor
      · refine midInv_of_parts _ e (s.effects e).trackId
          ((s.effects e).deps ++ [d]) ((s.effects e).depsLength + 1)
          (by simp [updateEff_effects_self, setDep])
          (by simp [updateEff_effects_self, setDep])
          (by simp [updateEff_effects_self, setDep])
          (by simp [hDL]) ?_ ?_ ?_ ?_ <;>
            (intro x
             rw [show (updateEff (setDep s d (depSet (s.deps d) e
                 (s.effects e).trackId)) e (fun f => { f with
                   deps := f.deps ++ [d],
                   depsLength := f.depsLength + 1 })).deps =
               (setDep s d (depSet (s.deps d) e (s.effects e).trackId)).deps
               from rfl, hbase])
        · rw [htk]
          intro hx
          by_cases hxd : x = d
          · rw [if_pos hxd]
          · rw [if_neg hxd]
            rcases List.mem_append.mp hx with hxl | hxr
            · exact hM1 x (by rw [hDL, List.take_length]; exact hxl)
            · exact absurd (by simpa using hxr) hxd
        · rw [htk]
          intro hx
          by_cases hxd : x = d
          · exact List.mem_append.mpr (Or.inr (by simp [hxd]))
          · rw [if_neg hxd] at hx
            exact List.mem_append.mpr
              (Or.inl (List.take_subset _ _ (hM4 x hx)))
        · intro hx
          by_cases hxd : x = d
          · exact List.mem_append.mpr (Or.inr (by simp [hxd]))
          · rw [if_neg hxd] at hx
            exact List.mem_append.mpr (Or.inl (hM2 x hx))
        · intro t hx
          by_cases hxd : x = d
          · rw [if_pos hxd] at hx
            have hti := Option.some.inj hx
            omega
          · rw [if_neg hxd] at hx
            exact hM3 x t hx
      · simp [updateEff_effects_self, setDep]

theorem trackFold_midInv (e : Nat) (ds : List Nat) :
    ∀ s : KState, MidInv e s →
      MidInv e (ds.foldl (fun s2 d => trackEffect s2 e d) s) ∧
      ((ds.foldl (fun s2 d => trackEffect s2 e d) s).effects e).trackId =
        (s.effects e).trackId := by
  induction ds with
  | nil => exact fun s h => ⟨h, rfl⟩
  | cons a as ih =>
    intro s h
    have h1 := trackEffect_midInv s e a h
    have h2 := ih (trackEffect s e a) h1.1
    exact ⟨h2.1, h2.2.trans h1.2⟩

theorem cleanup_fold_effects (e : Nat) (L : List Nat) :
    ∀ s : KState,
      (L.foldl (fun s2 d => cleanupDepEffect s2 d e) s).effects = s.effects := by
  induction L with
  | nil => exact fun _ => rfl
  | cons a as ih =>
    intro s
    exact (ih (cleanupDepEffect s a e)).trans (cleanupDepEffect_effects s a e)

theorem cleanup_fold_mono (e : Nat) (L : List Nat) (x t : Nat) :
    ∀ s : KState,
      depGet ((L.foldl (fun s2 d => cleanupDepEffect s2 d e) s).deps x) e =
        some t →
      depGet (s.deps x) e = some t := by
  induction L with
  | nil => exact fun _ h => h
  | cons a as ih =>
    intro s h
    exact cleanupDepEffect_mono s a e x t (ih _ h)

theorem cleanup_fold_removes (e : Nat) (L : List Nat) (x t : Nat) :
    ∀ s : KState, x ∈ L →
      depGet ((L.foldl (fun s2 d => cleanupDepEffect s2 d e) s).deps x) e =
        some t →
      t = (s.effects e).trackId := by
  induction L with
  | nil =>
    intro s hx
    cases hx
  | cons a as ih =>
    intro s hx h
    by_cases hxa : x = a
    · subst hxa
      have h1 := cleanup_fold_mono e as x t (cleanupDepEffect s x e) h
      exact cleanupDepEffect_removes s e x t h1
    · have hx2 : x ∈ as := by
        cases List.mem_cons.mp hx with
        | inl h0 => exact absurd h0 hxa
        | inr h0 => exact h0
      have h3 := ih (cleanupDepEffect s a e) hx2 h
      rw [cleanupDepEffect_effects] at h3
      exact h3

/-- After `postCleanupEffect`, every dep entry that still records the effect
carries the current track id (stale slots were swept, current ones were in
the tracked prefix), and the track id itself is unchanged. -/
theorem postCleanup_inv (s : KState) (e : Nat) (h : MidInv e s) :
    (∀ x t, depGet ((postCleanupEffect s e).deps x) e = some t →
      t = (s.effects e).trackId) ∧
    ((postCleanupEffect s e).effects e).trackId = (s.effects e).trackId := by
  obtain ⟨hlen, hM1, hM4, hM2, hM3⟩ := h
  unfold postCleanupEffect
  split
  next hlt =>
    constructor
    · intro x t hx
      have hx1 : depGet ((((s.effects e).deps.drop (s.effects e).depsLength).foldl
          (fun s2 d => cleanupDepEffect s2 d e) s).deps x) e = some t := hx
      have hs : depGet (s.deps x) e = some t := cleanup_fold_mono e _ x t s hx1
      have hmem : x ∈ (s.effects e).deps := hM2 x (by rw [hs]; rfl)
      rw [← List.take_append_drop (s.effects e).depsLength
        (s.effects e).deps] at hmem
      rcases List.mem_append.mp hmem with h1 | h2
      · have h3 := hM1 x h1
        rw [hs] at h3
        exact Option.some.inj h3
      · exact cleanup_fold_removes e _ x t s h2 hx1
    · rw [updateEff_effects_self]
      show ((((s.effects e).deps.drop (s.effects e).depsLength).foldl
        (fun s2 d => cleanupDepEffect s2 d e) s).effects e).trackId = _
      rw [cleanup_fold_effects]
  next hge =>
    constructor
    · intro x t hx
      have hmem : x ∈ (s.effects e).deps := hM2 x (by rw [hx]; rfl)
      have hmem2 : x ∈ (s.effects e).deps.take (s.effects e).depsLength := by
        rw [List.take_of_length_le (by omega)]
        exact hmem
      have h3 := hM1 x hmem2
      rw [hx] at h3
      exact Option.some.inj h3
    · rfl

/-- `preCleanupEffect` (bump track id, reset the deps cursor) establishes
the mid-run invariant from the two well-formedness facts. -/
theorem preCleanup_midInv (s : KState) (e : Nat)
    (hW1 : ∀ x, (depGet (s.deps x) e).isSome → x ∈ (s.effects e).deps)
    (hW2 : ∀ x t, depGet (s.deps x) e = some t → t ≤ (s.effects e).trackId) :
    MidInv e (preCleanupEffect s e) := by
  refine midInv_of_parts _ e ((s.effects e).trackId + 1) (s.effects e).deps 0
    (by unfold preCleanupEffect; rw [updateEff_effects_self])
    (by unfold preCleanupEffect; rw [updateEff_effects_self])
    (by unfold preCleanupEffect; rw [updateEff_effects_self])
    (by omega) ?_ ?_ ?_ ?_
  · intro x hx
    exact absurd hx (List.not_mem_nil x)
  · intro x hx
    have h5 := hW2 x ((s.effects e).trackId + 1) hx
    exact absurd h5 (by omega)
  · intro x hx
    exact hW1 x hx
  · intro x t hx
    have h5 := hW2 x t hx
    omega

/-- The subscriber-set invariant of claim C4 for one effect: the effect
appears in a dep map iff the recorded id is the effect's current track id. -/
def DepInv (e : Nat) (s : KState) : Prop :=
  ∀ d, (depGet (s.deps d) e).isSome ↔
    depGet (s.deps d) e = some ((s.effects e).trackId)

theorem depInv_of_uniform (s : KState) (e : Nat) (T : Nat)
    (hT : (s.effects e).trackId = T)
    (h : ∀ x t, depGet (s.deps x) e = some t → t = T) : DepInv e s := by
  intro d
  constructor
  · intro hs
    obtain ⟨t, ht⟩ := Option.isSome_iff_exists.mp hs
    rw [ht, hT, h d t ht]
  · intro hs
    rw [hs]
    rfl

/-- The state transformations of `ReactiveEffect.run` before `preCleanup`
(dirty level reset, saving/setting the tracking globals, `_runnings++`) and
between `preCleanup` and the body (`fn` bookkeeping: run counter). -/
def runPrelude (st : KState) (e : Nat) : KState :=
  updateEff ({ updateEff st e (fun f => { f with dirtyLevel := 0 }) with
      shouldTrack := true, activeEffect := some e }) e
    (fun f => { f with runnings := f.runnings + 1 })

def runPre2 (st : KState) (e : Nat) : KState :=
  updateEff (preCleanupEffect (runPrelude st e) e) e
    (fun f => { f with runCount := f.runCount + 1 })

theorem runEffect_active (st : KState) (e : Nat) (body : KState → KState)
    (h : (st.effects e).active = true) :
    runEffect st e body =
      { updateEff (postCleanupEffect (body (runPre2 st e)) e) e
          (fun f => { f with runnings := f.runnings - 1 }) with
        activeEffect := st.activeEffect, shouldTrack := st.shouldTrack } := by
  have h2 : ((updateEff st e (fun f =>
      { f with dirtyLevel := 0 })).effects e).active = true := by
    rw [updateEff_effects_self]
    exact h
  simp only [runEffect]
  rw [if_pos h2]
  rfl

/-- A run of an active effect whose body preserves the mid-run invariant
(and the track id) ends with the subscriber-set invariant: this is the
pre-cleanup / body / post-cleanup cycle of `ReactiveEffect.run`. -/
theorem runEffect_inv (st : KState) (e : Nat) (body : KState → KState)
    (hact : (st.effects e).active = true)
    (hW1 : ∀ x, (depGet (st.deps x) e).isSome → x ∈ (st.effects e).deps)
    (hW2 : ∀ x t, depGet (st.deps x) e = some t → t ≤ (st.effects e).trackId)
    (hbody : ∀ s, MidInv e s → MidInv e (body s) ∧
      ((body s).effects e).trackId = (s.effects e).trackId) :
    DepInv e (runEffect st e body) := by
  have hpre1 : ((runPrelude st e).effects e).trackId =
      (st.effects e).trackId := by
    unfold runPrelude
    simp [updateEff_effects_self]
  have hpre2 : ((runPrelude st e).effects e).deps = (st.effects e).deps := by
    unfold runPrelude
    simp [updateEff_effects_self]
  have hD : MidInv e (preCleanupEffect (runPrelude st e) e) := by
    apply preCleanup_midInv
    · intro x hx
      rw [hpre2]
      exact hW1 x hx
    · intro x t hx
      rw [hpre1]
      exact hW2 x t hx
  have hDtid : ((preCleanupEffect (runPrelude st e) e).effects e).trackId =
      (st.effects e).trackId + 1 := by
    unfold preCleanupEffect
    rw [updateEff_effects_self]
    show ((runPrelude st e).effects e).trackId + 1 = _
    rw [hpre1]
  have hE : MidInv e (runPre2 st e) := by
    obtain ⟨h0, h1, h4, h2, h3⟩ := hD
    exact midInv_of_parts (runPre2 st e) e
      ((preCleanupEffect (runPrelude st e) e).effects e).trackId
      ((preCleanupEffect (runPrelude st e) e).effects e).deps
      ((preCleanupEffect (runPrelude st e) e).effects e).depsLength
      (by unfold runPre2; rw [updateEff_effects_self])
      (by unfold runPre2; rw [updateEff_effects_self])
      (by unfold runPre2; rw [updateEff_effects_self])
      h0 h1 h4 h2 h3
  have hE2 : ((runPre2 st e).effects e).trackId =
      (st.effects e).trackId + 1 := by
    unfold runPre2
    rw [updateEff_effects_self]
    show ((preCleanupEffect (runPrelude st e) e).effects e).trackId = _
    exact hDtid
  have hF := hbody (runPre2 st e) hE
  have hG := postCleanup_inv (body (runPre2 st e)) e hF.1
  rw [runEffect_active st e body hact]
  refine depInv_of_uniform _ e ((st.effects e).trackId + 1) ?_ ?_
  · show ((updateEff (postCleanupEffect (body (runPre2 st e)) e) e
      (fun f => { f with runnings := f.runnings - 1 })).effects e).trackId = _
    rw [updateEff_effects_self]
    show ((postCleanupEffect (body (runPre2 st e)) e).effects e).trackId = _
    rw [hG.2, hF.2, hE2]
  · intro x t hx
    have h1 := hG.1 x t hx
    rw [hF.2, hE2] at h1
    exact h1

/-- A track cycle: one run of effect `e` whose body performs a sequence of
`trackEffect` calls (one per dependency read). -/
def trackCycle (st : KState) (e : Nat) (ds : List Nat) : KState :=
  runEffect st e (fun s => ds.foldl (fun s2 d => trackEffect s2 e d) s)

/-- Concrete world for checking the C4 invariant: one active effect with a
scheduler, no recorded dependencies yet, two empty dep maps. -/
def c4World : KState :=
  { effects := fun _ => Eff.fresh
    deps := fun _ => []
    trackedTarget := true
    targetKeys := [(RKey.str "a", 0), (RKey.str "b", 1)]
    nextDep := 2
    arr := []
    shouldTrack := true
    trackStack := []
    activeEffect := none
    pauseScheduleStack := 0
    queue := []
    ranLog := [] }

/-- Claim C4: after a track cycle — a run of an active effect whose body
performs any sequence of `trackEffect` calls between `preCleanupEffect` and
`postCleanupEffect` — the effect is present in a dep's subscriber map iff
the id the map records for it equals the effect's current track id; and a
trigger cycle preserves this invariant (it changes no dep map and no track
id).  The starting state must be well formed: every dep map that mentions
the effect appears in the effect's dep array, and no recorded id exceeds
the current track id. -/
theorem effect_dep_invariant (st : KState) (e : Nat) (ds : List Nat)
    (s2 : KState) (kind : TargetKind) (ttype : TriggerOp) (key : Option RKey)
    (newLength : Nat)
    (hact : (st.effects e).active = true)
    (hW1 : ∀ x, (depGet (st.deps x) e).isSome → x ∈ (st.effects e).deps)
    (hW2 : ∀ x t, depGet (st.deps x) e = some t → t ≤ (st.effects e).trackId)
    (hinv : DepInv e s2) :
    DepInv e (trackCycle st e ds) ∧
    DepInv e (trigger s2 kind ttype key newLength) := by
  constructor
  · exact runEffect_inv st e _ hact hW1 hW2 (fun s h => trackFold_midInv e ds s h)
  · have hc := (trigger_core s2 kind ttype key newLength).1
    have hdeps : (trigger s2 kind ttype key newLength).deps = s2.deps :=
      coreState_deps_eq hc
    have heff := coreState_effCore_eq hc e
    have htid : ((trigger s2 kind ttype key newLength).effects e).trackId =
        (s2.effects e).trackId := congrArg (fun p => p.2.2.2.1) heff
    intro d
    rw [hdeps, htid]
    exact hinv d

/-- Witness: in `c4World` the hypotheses hold, and the invariant holds after
the track cycle reading deps 0 and 1 and after a trigger on dep 0. -/
theorem effect_dep_invariant_witness :
    ((c4World.effects 0).active = true ∧
      (∀ x, (depGet (c4World.deps x) 0).isSome → x ∈ (c4World.effects 0).deps) ∧
      (∀ x t, depGet (c4World.deps x) 0 = some t →
        t ≤ (c4World.effects 0).trackId) ∧
      DepInv 0 c4World) ∧
    DepInv 0 (trackCycle c4World 0 [0, 1]) ∧
    DepInv 0 (trigger c4World TargetKind.plain TriggerOp.setOp
      (some (RKey.str "a")) 0) := by
  have h1 : (c4World.effects 0).active = true := rfl
  have h2 : ∀ x, (depGet (c4World.deps x) 0).isSome →
      x ∈ (c4World.effects 0).deps := by
    intro x hx
    simp [c4World, depGet, mapGet] at hx
  have h3 : ∀ x t, depGet (c4World.deps x) 0 = some t →
      t ≤ (c4World.effects 0).trackId := by
    intro x t hx
    simp [c4World, depGet, mapGet] at hx
  have h4 : DepInv 0 c4World := by
    intro d
    simp [c4World, DepInv, depGet, mapGet]
  have h5 := effect_dep_invariant c4World 0 [0, 1] c4World TargetKind.plain
    TriggerOp.setOp (some (RKey.str "a")) 0 h1 h2 h3 h4
  exact ⟨⟨h1, h2, h3, h4⟩, h5.1, h5.2⟩

/-- Witness for C1 at a concrete depsMap: setting `length` to 1 on an array
with deps for `length` and index 1 collects the dep of index 1. -/
theorem trigger_collects_affected_deps_witness :
    (([(lengthKey, 0), (RKey.idx 1, 1)].map Prod.fst).Nodup ∧
      ([(lengthKey, 0), (RKey.idx 1, 1)].map Prod.snd).Nodup ∧
      (RKey.idx 1, 1) ∈ [(lengthKey, 0), (RKey.idx 1, 1)]) ∧
    some 1 ∈ collectDeps [(lengthKey, 0), (RKey.idx 1, 1)] TargetKind.array
      TriggerOp.setOp (some lengthKey) 1 := by
  refine ⟨⟨by decide, by decide, by decide⟩, ?_⟩
  exact (trigger_collects_affected_deps [(lengthKey, 0), (RKey.idx 1, 1)]
    TargetKind.array TriggerOp.setOp (some lengthKey) 1 (RKey.idx 1) 1
    (by decide) (by decide) (by decide)).1.mpr
    (Or.inr (Or.inl ⟨by decide, rfl, rfl, Or.inr (by decide)⟩))

/-! ### Claim C5: identity laws of the part_001 `reactive` registry. -/

theorem mapGet_append_self {κ α : Type} [DecidableEq κ]
    (l : List (κ × α)) (k : κ) (v : α) (h : mapGet l k = none) :
    mapGet (l ++ [(k, v)]) k = some v := by
  unfold mapGet at h ⊢
  have hf : l.find? (fun p => p.1 = k) = none := by
    cases hc : l.find? (fun p => p.1 = k) with
    | none => rfl
    | some a =>
      rw [hc] at h
      simp at h
  rw [List.find?_append, hf]
  simp [List.find?]

theorem mapGet_append_ne {κ α : Type} [DecidableEq κ]
    (l : List (κ × α)) (k k2 : κ) (v : α) (h : k2 ≠ k) :
    mapGet (l ++ [(k, v)]) k2 = mapGet l k2 := by
  unfold mapGet
  rw [List.find?_append]
  have hone : ([(k, v)] : List (κ × α)).find? (fun p => p.1 = k2) = none := by
    simp [List.find?, Ne.symm h]
  rw [hone]
  cases l.find? (fun p => p.1 = k2) <;> rfl

/-- An object in the part_001 heap: a plain raw object, or the Proxy created
by `createReactive` over a target object. -/
inductive ObjKind where
  | plain : ObjKind
  | proxyOf : Nat → ObjKind
deriving DecidableEq

/-- The part_001 module state: the JS heap (object ids in allocation order)
and the module-level `reactiveMap` (target → proxy). -/
structure RegState where
  heap : List ObjKind
  reactiveMap : List (Nat × Nat)
deriving DecidableEq

/-- `createReactive(o)` of part_001: `new Proxy(o, ...)` always allocates a
fresh proxy object over the target. -/
def createReactive (s : RegState) (o : Nat) : RegState × Nat :=
  ({ s with heap := s.heap ++ [ObjKind.proxyOf o] }, s.heap.length)

/-- `reactive(o)` of part_001: return the cached proxy when `reactiveMap`
has one for `o`, else create a proxy and cache it.  The source checks only
the cache — it never asks whether `o` is itself already a proxy. -/
def reactive (s : RegState) (o : Nat) : RegState × Nat :=
  match mapGet s.reactiveMap o with
  | some p => (s, p)
  | none =>
    let r := createReactive s o
    ({ r.1 with reactiveMap := r.1.reactiveMap ++ [(o, r.2)] }, r.2)

/-- The `get` trap on key `'raw'`: for a proxy it returns the target. -/
def rawEscape (s : RegState) (p : Nat) : Option Nat :=
  match s.heap.get? p with
  | some (ObjKind.proxyOf o) => some o
  | _ => none

/-- A one-object world: object 0 is a plain raw object, nothing cached. -/
def c5World : RegState := { heap := [ObjKind.plain], reactiveMap := [] }

/-- Claim C5 counterexample: `reactive(reactive(x)) === reactive(x)` fails
in part_001.  Applying `reactive` to the proxy of object 0 misses the cache
(the cache is keyed by raw targets only and the source has no
already-a-proxy check), so a distinct new proxy over the proxy is created.
The other two identities of the claim do hold here. -/
theorem reactive_reactive_counterexample :
    (reactive (reactive c5World 0).1 (reactive c5World 0).2).2 ≠
      (reactive c5World 0).2 ∧
    reactive (reactive c5World 0).1 0 = reactive c5World 0 ∧
    rawEscape (reactive c5World 0).1 (reactive c5World 0).2 = some 0 := by
  decide

theorem rawEscape_concat (h : List ObjKind) (m : List (Nat × Nat)) (o : Nat) :
    rawEscape { heap := h ++ [ObjKind.proxyOf o], reactiveMap := m }
      h.length = some o := by
  unfold rawEscape
  have hg : (({ heap := h ++ [ObjKind.proxyOf o], reactiveMap := m } :
      RegState).heap.get? h.length) = some (ObjKind.proxyOf o) := by
    show (h ++ [ObjKind.proxyOf o]).get? h.length = some (ObjKind.proxyOf o)
    rw [List.get?_eq_getElem?]
    exact List.getElem?_concat_length _ _
  rw [hg]

/-- Claim C5 (amended): for a raw object `o` not yet cached, in a state
whose cache has no entry at the next allocation id: repeated `reactive(o)`
calls return the same proxy without changing the state, and the raw escape
of that proxy returns `o`; but `reactive` applied to the returned proxy
does NOT return that proxy — it allocates a different one (the source lacks
the already-reactive check, so the spec sentence `reactive(reactive(x)) ===
reactive(x)` is false). -/
theorem reactive_identity_spec (s : RegState) (o : Nat)
    (ho : o < s.heap.length)
    (hmiss : mapGet s.reactiveMap o = none)
    (hkeys : mapGet s.reactiveMap s.heap.length = none) :
    reactive (reactive s o).1 o = reactive s o ∧
    rawEscape (reactive s o).1 (reactive s o).2 = some o ∧
    (reactive (reactive s o).1 (reactive s o).2).2 ≠ (reactive s o).2 := by
  have hro : reactive s o =
      ({ heap := s.heap ++ [ObjKind.proxyOf o]
         reactiveMap := s.reactiveMap ++ [(o, s.heap.length)] },
        s.heap.length) := by
    unfold reactive
    rw [hmiss]
    rfl
  have h2 : mapGet (s.reactiveMap ++ [(o, s.heap.length)]) s.heap.length =
      none := by
    rw [mapGet_append_ne _ _ _ _ (show s.heap.length ≠ o by omega)]
    exact hkeys
  refine ⟨?_, ?_, ?_⟩
  · rw [hro]
    simp only [reactive]
    rw [mapGet_append_self _ _ _ hmiss]
  · rw [hro]
    exact rawEscape_concat s.heap (s.reactiveMap ++ [(o, s.heap.length)]) o
  · rw [hro]
    simp only [reactive]
    rw [h2]
    simp [createReactive]

/-- Witness for the amended C5 at the one-object world. -/
theorem reactive_identity_spec_witness :
    (0 < c5World.heap.length ∧ mapGet c5World.reactiveMap 0 = none ∧
      mapGet c5World.reactiveMap c5World.heap.length = none) ∧
    (reactive (reactive c5World 0).1 0 = reactive c5World 0 ∧
      rawEscape (reactive c5World 0).1 (reactive c5World 0).2 = some 0 ∧
      (reactive (reactive c5World 0).1 (reactive c5World 0).2).2 ≠
        (reactive c5World 0).2) :=
  ⟨⟨by decide, by decide, by decide⟩,
    reactive_identity_spec c5World 0 (by decide) (by decide) (by decide)⟩

/-! ### Claims C6 and C9: the runtime-core scheduler. -/

/-- A scheduler job of scheduler.ts: the optional numeric `id`, the `pre`,
`active` and `allowRecurse` flags, and — for the flush model — the handles
of the jobs this job passes to `queueJob` when it executes. -/
structure Job where
  jid : Option Nat
  pre : Bool
  active : Bool
  allowRecurse : Bool
  spawns : List Nat
deriving DecidableEq

/-- `comparator(a, b) <= 0` of scheduler.ts as a Boolean order: ids compare
numerically with a missing id as Infinity; at equal numeric ids a `pre` job
comes first.  For two idless jobs the difference is `Infinity - Infinity`
(NaN, treated as 0 by sort), so the pre flag is not consulted and they
compare as equal. -/
def jobLE (a b : Job) : Bool :=
  match a.jid, b.jid with
  | some x, some y => if x = y then !(b.pre && !a.pre) else decide (x < y)
  | some _, none => true
  | none, some _ => false
  | none, none => true

/-- The descend-right condition of `findInsertionIndex`:
`middleJobId < id || (middleJobId === id && middleJob.pre)` (a missing id is
Infinity, which satisfies neither disjunct). -/
def beforeId (j : Job) (i : Nat) : Bool :=
  match j.jid with
  | some x => decide (x < i) || (decide (x = i) && j.pre)
  | none => false

theorem jobLE_trans (a b c : Job) (h1 : jobLE a b = true)
    (h2 : jobLE b c = true) : jobLE a c = true := by
  cases ha : a.jid <;> cases hb : b.jid <;> cases hc : c.jid <;>
      simp only [jobLE, ha, hb, hc] at h1 h2 ⊢ <;> try trivial
  next x y z =>
    by_cases hxy : x = y
    · subst hxy
      by_cases hyz : x = z
      · subst hyz
        rw [if_pos rfl] at h1 h2 ⊢
        cases ap : a.pre <;> cases bp : b.pre <;> cases cp : c.pre <;>
          simp [ap, bp, cp] at h1 h2 ⊢
      · rw [if_neg hyz] at h2 ⊢
        exact h2
    · by_cases hyz : y = z
      · subst hyz
        rw [if_neg hxy] at h1 ⊢
        exact h1
      · rw [if_neg hxy] at h1
        rw [if_neg hyz] at h2
        simp only [decide_eq_true_eq] at h1 h2
        rw [if_neg (by omega)]
        simp only [decide_eq_true_eq]
        omega

theorem jobLE_total (a b : Job) : jobLE a b = true ∨ jobLE b a = true := by
  cases ha : a.jid <;> cases hb : b.jid <;>
      simp only [jobLE, ha, hb] <;> try tauto
  next x y =>
    by_cases hxy : x = y
    · subst hxy
      rw [if_pos rfl, if_pos rfl]
      cases ap : a.pre <;> cases bp : b.pre <;> simp
    · rw [if_neg hxy, if_neg (Ne.symm hxy)]
      simp only [decide_eq_true_eq]
      omega

theorem jobLE_none_right (a b : Job) (h : b.jid = none) : jobLE a b = true := by
  cases ha : a.jid <;> simp [jobLE, ha, h]

/-- `beforeId` is downward closed along `jobLE`. -/
theorem beforeId_dcl (a b : Job) (i : Nat) (hab : jobLE a b = true)
    (hb : beforeId b i = true) : beforeId a i = true := by
  cases ha : a.jid <;> cases hb2 : b.jid <;>
      simp only [jobLE, beforeId, ha, hb2] at hab hb ⊢ <;> try trivial
  next x y =>
    by_cases hxy : x = y
    · subst hxy
      rw [if_pos rfl] at hab
      rcases Bool.or_eq_true_iff.mp hb with hlt | hpre
      · exact Bool.or_eq_true_iff.mpr (Or.inl hlt)
      · have hbp : b.pre = true := (Bool.and_eq_true_iff.mp hpre).2
        have hap : a.pre = true := by
          cases hap2 : a.pre
          · rw [hbp, hap2] at hab
            simp at hab
          · rfl
        exact Bool.or_eq_true_iff.mpr
          (Or.inr (Bool.and_eq_true_iff.mpr ⟨(Bool.and_eq_true_iff.mp hpre).1, hap⟩))
    · rw [if_neg hxy] at hab
      simp only [decide_eq_true_eq] at hab
      simp only [Bool.or_eq_true_iff, Bool.and_eq_true_iff, decide_eq_true_eq] at hb ⊢
      omega

/-- A job strictly before the probe id precedes the job being inserted. -/
theorem before_jobLE (a n : Job) (i : Nat) (hn : n.jid = some i)
    (ha : beforeId a i = true) : jobLE a n = true := by
  cases hja : a.jid <;> simp only [beforeId, jobLE, hja, hn] at ha ⊢
  · exact absurd ha (by simp)
  next x =>
    by_cases hxi : x = i
    · subst hxi
      rw [if_pos rfl]
      rcases Bool.or_eq_true_iff.mp ha with hlt | hpre
      · simp at hlt
      · have hap : a.pre = true := (Bool.and_eq_true_iff.mp hpre).2
        simp [hap]
    · rw [if_neg hxi]
      simp only [Bool.or_eq_true_iff, Bool.and_eq_true_iff, decide_eq_true_eq] at ha ⊢
      omega

/-- The job being inserted precedes any job not strictly before its id. -/
theorem after_jobLE (n b : Job) (i : Nat) (hn : n.jid = some i)
    (hb : beforeId b i = false) : jobLE n b = true := by
  cases hjb : b.jid <;> simp only [beforeId, jobLE, hn, hjb] at hb ⊢
  next y =>
    by_cases hyi : y = i
    · subst hyi
      simp only [decide_eq_true_eq, Bool.or_eq_false_iff,
        Bool.and_eq_false_iff, decide_eq_false_iff_not] at hb
      rw [if_pos rfl]
      rcases hb.2 with h | h
      · exact absurd trivial h
      · simp [h]
    · simp only [decide_eq_true_eq, Bool.or_eq_false_iff,
        Bool.and_eq_false_iff, decide_eq_false_iff_not] at hb
      rw [if_neg (by omega)]
      simp only [decide_eq_true_eq]
      omega

/-- Scheduler module state: the job catalogue (immutable job records), the
queue of job handles, `flushIndex`, `isFlushing`, and the execution log
(observation of job invocations). -/
structure SState where
  cat : Nat → Job
  queue : List Nat
  flushIndex : Nat
  isFlushing : Bool
  log : List Nat

/-- `queue[middle]` probe of the binary search (in bounds in every reachable
call; an out-of-range index yields false like the Infinity id). -/
def goLeft (cat : Nat → Job) (q : List Nat) (i m : Nat) : Bool :=
  match q.get? m with
  | some jh => beforeId (cat jh) i
  | none => false

/-- The `while (start < end)` loop of `findInsertionIndex`, with explicit
fuel (each iteration shrinks `fin - start`, so `fin - start` units of fuel
always suffice and extra fuel does not change the result). -/
def biSearchF (cat : Nat → Job) (q : List Nat) (i : Nat) :
    Nat → Nat → Nat → Nat
  | 0, start, _ => start
  | fuel + 1, start, fin =>
    if start < fin then
      if goLeft cat q i ((start + fin) / 2) then
        biSearchF cat q i fuel ((start + fin) / 2 + 1) fin
      else
        biSearchF cat q i fuel start ((start + fin) / 2)
    else start

def biSearch (cat : Nat → Job) (q : List Nat) (i start fin : Nat) : Nat :=
  biSearchF cat q i (fin - start) start fin

/-- `findInsertionIndex(id)` of scheduler.ts: binary search over the queue
starting at `flushIndex + 1`. -/
def findInsertionIndex (cat : Nat → Job) (q : List Nat) (fi i : Nat) : Nat :=
  biSearch cat q i (fi + 1) q.length

/-- `queueJob(job)` of scheduler.ts: dedupe with `includes` from
`flushIndex` (or `flushIndex + 1` for a recursing job mid-flush), then
push idless jobs to the back and splice id-carrying jobs at the insertion
index (`splice` clamps an index beyond the end to an append). -/
def queueJob (s : SState) (j : Nat) : SState :=
  if s.queue = [] ∨ j ∉ s.queue.drop
      (if s.isFlushing && (s.cat j).allowRecurse then s.flushIndex + 1
       else s.flushIndex) then
    match (s.cat j).jid with
    | none => { s with queue := s.queue ++ [j] }
    | some i =>
      { s with
        queue := s.queue.insertIdx
          (min (findInsertionIndex s.cat s.queue s.flushIndex i)
            s.queue.length) j }
  else s

/-- `invalidateJob(job)` of scheduler.ts: splice the job out only when its
index is strictly greater than `flushIndex` (an absent job has index −1 and
is never greater). -/
def invalidateJob (s : SState) (j : Nat) : SState :=
  if j ∈ s.queue then
    if s.flushIndex < s.queue.indexOf j then
      { s with queue := s.queue.eraseIdx (s.queue.indexOf j) }
    else s
  else s

/-- The `for (flushIndex = 0; flushIndex < queue.length; flushIndex++)`
loop of `flushJobs`: run `queue[flushIndex]` when active (logging it and
letting it enqueue its spawned jobs), then advance.  `fuel` bounds the
iteration count, since the queue may grow while flushing. -/
def flushLoop (fuel : Nat) (s : SState) : SState :=
  match fuel with
  | 0 => s
  | fuel + 1 =>
    if h : s.flushIndex < s.queue.length then
      let j := s.queue.get ⟨s.flushIndex, h⟩
      let s2 := if (s.cat j).active then
          (s.cat j).spawns.foldl queueJob { s with log := s.log ++ [j] }
        else s
      flushLoop fuel { s2 with flushIndex := s2.flushIndex + 1 }
    else s

/-- One `flushJobs` pass (without the trailing re-flush): mark flushing,
stably sort the queue with the comparator, run the loop from index 0, then
clear the queue and reset the globals. -/
def flushJobs (fuel : Nat) (s : SState) : SState :=
  let s1 := { s with
    queue := List.insertionSort
      (fun a b => jobLE (s.cat a) (s.cat b) = true) s.queue
    flushIndex := 0
    isFlushing := true }
  let r := flushLoop fuel s1
  { r with queue := [], flushIndex := 0, isFlushing := false }

theorem biSearchF_bounds (cat : Nat → Job) (q : List Nat) (i : Nat) :
    ∀ n start fin, fin - start ≤ n → start ≤ fin →
      start ≤ biSearchF cat q i n start fin ∧
      biSearchF cat q i n start fin ≤ fin := by
  intro n
  induction n with
  | zero =>
    intro start fin hn hsf
    simp only [biSearchF]
    omega
  | succ m ih =>
    intro start fin hn hsf
    simp only [biSearchF]
    split
    next h =>
      split
      next hgl =>
        have hr := ih ((start + fin) / 2 + 1) fin (by omega) (by omega)
        omega
      next hgl =>
        have hr := ih start ((start + fin) / 2) (by omega) (by omega)
        omega
    next h => omega

theorem biSearch_bounds (cat : Nat → Job) (q : List Nat) (i : Nat) :
    ∀ n start fin, fin - start ≤ n → start ≤ fin →
      start ≤ biSearch cat q i start fin ∧ biSearch cat q i start fin ≤ fin :=
  fun _ start fin _ hsf =>
    biSearchF_bounds cat q i (fin - start) start fin (le_refl _) hsf

/-- Partition property of the binary search: on a region where the descend
condition is downward closed, everything left of the returned index
satisfies it and everything from the index to the region end does not. -/
theorem biSearchF_partition (cat : Nat → Job) (q : List Nat) (i : Nat) :
    ∀ n start fin, fin - start ≤ n → start ≤ fin →
      (∀ m1 m2, start ≤ m1 → m1 ≤ m2 → m2 < fin →
        goLeft cat q i m2 = true → goLeft cat q i m1 = true) →
      (∀ m, start ≤ m → m < biSearchF cat q i n start fin →
        goLeft cat q i m = true) ∧
      (∀ m, biSearchF cat q i n start fin ≤ m → m < fin →
        goLeft cat q i m = false) := by
  intro n
  induction n with
  | zero =>
    intro start fin hn hsf hmono
    simp only [biSearchF]
    exact ⟨fun m h1 h2 => ((show False by omega)).elim,
           fun m h1 h2 => ((show False by omega)).elim⟩
  | succ k ih =>
    intro start fin hn hsf hmono
    simp only [biSearchF]
    split
    next h =>
      split
      next hgl =>
        have hrec := ih ((start + fin) / 2 + 1) fin (by omega) (by omega)
          (fun m1 m2 a b c d => hmono m1 m2 (by omega) b c d)
        refine ⟨?_, hrec.2⟩
        intro m h1 h2
        by_cases hm : (start + fin) / 2 + 1 ≤ m
        · exact hrec.1 m hm h2
        · exact hmono m ((start + fin) / 2) h1 (by omega) (by omega) hgl
      next hgl =>
        have hrec := ih start ((start + fin) / 2) (by omega) (by omega)
          (fun m1 m2 a b c d => hmono m1 m2 a b (by omega) d)
        refine ⟨hrec.1, ?_⟩
        intro m h1 h2
        by_cases hm : m < (start + fin) / 2
        · exact hrec.2 m h1 hm
        · cases hg : goLeft cat q i m
          · rfl
          · exact absurd (hmono ((start + fin) / 2) m (by omega) (by omega)
              h2 hg) (by simpa using hgl)
    next h =>
      exact ⟨fun m h1 h2 => ((show False by omega)).elim,
             fun m h1 h2 => ((show False by omega)).elim⟩

theorem biSearch_partition (cat : Nat → Job) (q : List Nat) (i : Nat) :
    ∀ n start fin, fin - start ≤ n → start ≤ fin →
      (∀ m1 m2, start ≤ m1 → m1 ≤ m2 → m2 < fin →
        goLeft cat q i m2 = true → goLeft cat q i m1 = true) →
      (∀ m, start ≤ m → m < biSearch cat q i start fin →
        goLeft cat q i m = true) ∧
      (∀ m, biSearch cat q i start fin ≤ m → m < fin →
        goLeft cat q i m = false) :=
  fun _ start fin _ hsf hmono =>
    biSearchF_partition cat q i (fin - start) start fin (le_refl _) hsf hmono

theorem insertIdx_eq_take_drop {α : Type} (a : α) :
    ∀ (l : List α) (n : Nat), n ≤ l.length →
      l.insertIdx n a = l.take n ++ a :: l.drop n := by
  intro l
  induction l with
  | nil =>
    intro n hn
    have : n = 0 := by simpa using hn
    subst this
    rfl
  | cons x xs ih =>
    intro n hn
    cases n with
    | zero => rfl
    | succ m =>
      have h2 : m ≤ xs.length := by simpa using hn
      show x :: xs.insertIdx m a = x :: (xs.take m ++ a :: xs.drop m)
      rw [ih m h2]

theorem insertIdx_append_left {α : Type} (a : α) :
    ∀ (A T : List α) (p : Nat), A.length ≤ p →
      (A ++ T).insertIdx p a = A ++ T.insertIdx (p - A.length) a := by
  intro A
  induction A with
  | nil => intro T p hp; simp
  | cons x A2 ih =>
    intro T p hp
    cases p with
    | zero => simp at hp
    | succ m =>
      have h2 : A2.length ≤ m := by simpa using hp
      show x :: (A2 ++ T).insertIdx m a = x :: (A2 ++ T.insertIdx (m + 1 - (A2.length + 1)) a)
      rw [ih T m h2]
      simp only [List.cons_append, List.length_cons, Nat.succ_sub_succ]

theorem pairwise_drop_rel {α : Type} {R : α → α → Prop} {q : List α}
    {start : Nat} (hs : (q.drop start).Pairwise R) (m1 m2 : Nat)
    (h1 : start ≤ m1) (h2 : m1 < m2) (h3 : m2 < q.length)
    (hm1 : m1 < q.length) : R (q.get ⟨m1, hm1⟩) (q.get ⟨m2, h3⟩) := by
  have hd1 : m1 - start < (q.drop start).length := by
    rw [List.length_drop]
    omega
  have hd2 : m2 - start < (q.drop start).length := by
    rw [List.length_drop]
    omega
  have hrel := List.pairwise_iff_getElem.mp hs (m1 - start) (m2 - start)
    hd1 hd2 (by omega)
  have e1 : (q.drop start).get ⟨m1 - start, hd1⟩ = q.get ⟨m1, hm1⟩ := by
    simp only [List.get_eq_getElem, List.getElem_drop]
    congr 1
    omega
  have e2 : (q.drop start).get ⟨m2 - start, hd2⟩ = q.get ⟨m2, h3⟩ := by
    simp only [List.get_eq_getElem, List.getElem_drop]
    congr 1
    omega
  simp only [List.get_eq_getElem] at e1 e2
  rw [e1, e2] at hrel
  exact hrel

theorem pairwise_insertIdx {α : Type} {R : α → α → Prop} (T : List α) (k : α)
    (r : Nat) (hr : r ≤ T.length) (hT : T.Pairwise R)
    (hb : ∀ m (hm : m < T.length), m < r → R (T.get ⟨m, hm⟩) k)
    (ha : ∀ m (hm : m < T.length), r ≤ m → R k (T.get ⟨m, hm⟩)) :
    (T.insertIdx r k).Pairwise R := by
  rw [insertIdx_eq_take_drop k T r hr, List.pairwise_append]
  refine ⟨List.Pairwise.sublist (List.take_sublist r T) hT, ?_, ?_⟩
  · rw [List.pairwise_cons]
    refine ⟨?_, List.Pairwise.sublist (List.drop_sublist r T) hT⟩
    intro b hbmem
    obtain ⟨jx, hjx, hbe⟩ := List.mem_iff_getElem.mp hbmem
    have hjx2 : r + jx < T.length := by
      rw [List.length_drop] at hjx
      omega
    have : (T.drop r)[jx] = T.get ⟨r + jx, hjx2⟩ := by
      simp only [List.get_eq_getElem, List.getElem_drop]
    rw [← hbe, this]
    exact ha (r + jx) hjx2 (by omega)
  · intro a hamem b hbmem
    obtain ⟨jx, hjx, hae⟩ := List.mem_iff_getElem.mp hamem
    have hjxr : jx < r := by
      rw [List.length_take] at hjx
      omega
    have hjxT : jx < T.length := by
      rw [List.length_take] at hjx
      omega
    have hat : (T.take r)[jx] = T.get ⟨jx, hjxT⟩ := by
      simp only [List.get_eq_getElem, List.getElem_take]
    rcases List.mem_cons.mp hbmem with hbk | hbd
    · rw [← hae, hat, hbk]
      exact hb jx hjxT hjxr
    · obtain ⟨jy, hjy, hbe⟩ := List.mem_iff_getElem.mp hbd
      have hjy2 : r + jy < T.length := by
        rw [List.length_drop] at hjy
        omega
      have hbt : (T.drop r)[jy] = T.get ⟨r + jy, hjy2⟩ := by
        simp only [List.get_eq_getElem, List.getElem_drop]
      rw [← hae, hat, ← hbe, hbt]
      exact List.pairwise_iff_getElem.mp hT jx (r + jy) hjxT hjy2 (by omega)

/-- Order on job handles through the catalogue. -/
def keyLE (cat : Nat → Job) (a b : Nat) : Prop := jobLE (cat a) (cat b) = true

theorem queueJob_fields (s : SState) (k : Nat) :
    (queueJob s k).cat = s.cat ∧ (queueJob s k).flushIndex = s.flushIndex ∧
    (queueJob s k).isFlushing = s.isFlushing ∧
    (queueJob s k).log = s.log := by
  unfold queueJob
  repeat' split
  all_goals exact ⟨rfl, rfl, rfl, rfl⟩

theorem queueJob_mem (s : SState) (k b : Nat)
    (hb : b ∈ (queueJob s k).queue) : b = k ∨ b ∈ s.queue := by
  unfold queueJob at hb
  split at hb <;>
    (split at hb
     · split at hb
       next hnone =>
         rcases List.mem_append.mp hb with h | h
         · exact Or.inr h
         · exact Or.inl (by simpa using h)
       next i hsome =>
         rcases (List.mem_insertIdx (min_le_right _ _)).mp hb with h | h
         · exact Or.inl h
         · exact Or.inr h
     · exact Or.inr hb)

theorem queueJob_length (s : SState) (k : Nat) :
    s.queue.length ≤ (queueJob s k).queue.length := by
  unfold queueJob
  split <;>
    (split
     · split
       next hnone => simp
       next i hsome =>
         show s.queue.length ≤ (s.queue.insertIdx _ k).length
         rw [List.length_insertIdx _ _ (min_le_right _ _)]
         omega
     · exact le_refl _)

/-- `queueJob` during a flush never touches the queue at or before
`flushIndex`, and keeps the tail beyond `flushIndex` sorted when it was. -/
theorem queueJob_spec (s : SState) (k : Nat)
    (hfi : s.flushIndex < s.queue.length)
    (hs : (s.queue.drop (s.flushIndex + 1)).Pairwise (keyLE s.cat)) :
    (queueJob s k).queue.take (s.flushIndex + 1) =
      s.queue.take (s.flushIndex + 1) ∧
    ((queueJob s k).queue.drop (s.flushIndex + 1)).Pairwise (keyLE s.cat) ∧
    (∀ b ∈ (queueJob s k).queue.drop (s.flushIndex + 1),
      b = k ∨ b ∈ s.queue.drop (s.flushIndex + 1)) := by
  have hlenA : (s.queue.take (s.flushIndex + 1)).length = s.flushIndex + 1 := by
    rw [List.length_take]
    omega
  unfold queueJob
  split <;>
    (split
     case isFalse => exact ⟨rfl, hs, fun b hb => Or.inr hb⟩
     case isTrue hded =>
       split
       next hnone =>
         have hdr : (s.queue ++ [k]).drop (s.flushIndex + 1) =
             s.queue.drop (s.flushIndex + 1) ++ [k] := by
           conv_lhs => rw [← List.take_append_drop (s.flushIndex + 1) s.queue,
             List.append_assoc]
           rw [List.drop_left' hlenA]
         refine ⟨?_, ?_, ?_⟩
         · show (s.queue ++ [k]).take (s.flushIndex + 1) = _
           conv_lhs => rw [← List.take_append_drop (s.flushIndex + 1) s.queue,
             List.append_assoc]
           rw [List.take_left' hlenA]
         · show ((s.queue ++ [k]).drop (s.flushIndex + 1)).Pairwise
             (keyLE s.cat)
           rw [hdr, List.pairwise_append]
           refine ⟨hs, List.pairwise_singleton _ _, ?_⟩
           intro a hamem b hbmem
           rw [List.mem_singleton.mp hbmem]
           exact jobLE_none_right _ _ hnone
         · intro b hb
           rw [hdr] at hb
           rcases List.mem_append.mp hb with h | h
           · exact Or.inr h
           · exact Or.inl (by simpa using h)
       next i hsome =>
         have hbd := biSearch_bounds s.cat s.queue i
           (s.queue.length - (s.flushIndex + 1)) (s.flushIndex + 1)
           s.queue.length (le_refl _) (by omega)
         have hfid : findInsertionIndex s.cat s.queue s.flushIndex i =
             biSearch s.cat s.queue i (s.flushIndex + 1) s.queue.length := rfl
         have hmono : ∀ m1 m2, s.flushIndex + 1 ≤ m1 → m1 ≤ m2 →
             m2 < s.queue.length → goLeft s.cat s.queue i m2 = true →
             goLeft s.cat s.queue i m1 = true := by
           intro m1 m2 ha1 ha2 ha3 hg
           by_cases heq : m1 = m2
           · subst heq
             exact hg
           · have hm1 : m1 < s.queue.length := by omega
             have hrel := pairwise_drop_rel hs m1 m2 ha1 (by omega) ha3 hm1
             unfold goLeft at hg ⊢
             rw [List.get?_eq_getElem?, List.getElem?_eq_getElem ha3] at hg
             rw [List.get?_eq_getElem?, List.getElem?_eq_getElem hm1]
             exact beforeId_dcl _ _ i hrel hg
         have hpart := biSearch_partition s.cat s.queue i
           (s.queue.length - (s.flushIndex + 1)) (s.flushIndex + 1)
           s.queue.length (le_refl _) (by omega) hmono
         have hple : findInsertionIndex s.cat s.queue s.flushIndex i ≤
             s.queue.length := hbd.2
         have hpge : s.flushIndex + 1 ≤
             findInsertionIndex s.cat s.queue s.flushIndex i := hbd.1
         have hpmin : min (findInsertionIndex s.cat s.queue s.flushIndex i)
             s.queue.length =
             findInsertionIndex s.cat s.queue s.flushIndex i :=
           min_eq_left hple
         have hrle : findInsertionIndex s.cat s.queue s.flushIndex i -
             (s.flushIndex + 1) ≤
             (s.queue.drop (s.flushIndex + 1)).length := by
           rw [List.length_drop]
           omega
         have hsplit : ∀ p, s.flushIndex + 1 ≤ p →
             s.queue.insertIdx p k =
             s.queue.take (s.flushIndex + 1) ++
               (s.queue.drop (s.flushIndex + 1)).insertIdx
                 (p - (s.flushIndex + 1)) k := by
           intro p hp
           conv_lhs => rw [← List.take_append_drop (s.flushIndex + 1) s.queue]
           rw [insertIdx_append_left k (s.queue.take (s.flushIndex + 1))
             (s.queue.drop (s.flushIndex + 1)) p (by rw [hlenA]; omega), hlenA]
         refine ⟨?_, ?_, ?_⟩
         · show (s.queue.insertIdx _ k).take (s.flushIndex + 1) = _
           rw [hpmin, hsplit _ hpge, List.take_left' hlenA]
         · show ((s.queue.insertIdx _ k).drop (s.flushIndex + 1)).Pairwise
             (keyLE s.cat)
           rw [hpmin, hsplit _ hpge, List.drop_left' hlenA]
           apply pairwise_insertIdx _ _ _ hrle hs
           · intro m hm hmr
             have habs : s.flushIndex + 1 + m < s.queue.length := by
               rw [List.length_drop] at hm
               omega
             have hgl := hpart.1 (s.flushIndex + 1 + m) (by omega) (by omega)
             unfold goLeft at hgl
             rw [List.get?_eq_getElem?, List.getElem?_eq_getElem habs] at hgl
             have hTm : (s.queue.drop (s.flushIndex + 1)).get ⟨m, hm⟩ =
                 s.queue.get ⟨s.flushIndex + 1 + m, habs⟩ := by
               simp only [List.get_eq_getElem, List.getElem_drop]
             show jobLE (s.cat _) (s.cat k) = true
             rw [hTm]
             exact before_jobLE _ _ i hsome hgl
           · intro m hm hmr
             have habs : s.flushIndex + 1 + m < s.queue.length := by
               rw [List.length_drop] at hm
               omega
             have hgl := hpart.2 (s.flushIndex + 1 + m) (by omega) habs
             unfold goLeft at hgl
             rw [List.get?_eq_getElem?, List.getElem?_eq_getElem habs] at hgl
             have hTm : (s.queue.drop (s.flushIndex + 1)).get ⟨m, hm⟩ =
                 s.queue.get ⟨s.flushIndex + 1 + m, habs⟩ := by
               simp only [List.get_eq_getElem, List.getElem_drop]
             show jobLE (s.cat k) (s.cat _) = true
             rw [hTm]
             exact after_jobLE _ _ i hsome hgl
         · intro b hb
           rw [hpmin, hsplit _ hpge, List.drop_left' hlenA] at hb
           rcases (List.mem_insertIdx hrle).mp hb with h | h
           · exact Or.inl h
           · exact Or.inr h)

theorem flushLoop_succ (m : Nat) (s : SState)
    (h : s.flushIndex < s.queue.length) :
    flushLoop (m + 1) s =
      flushLoop m
        { (if (s.cat (s.queue.get ⟨s.flushIndex, h⟩)).active then
              (s.cat (s.queue.get ⟨s.flushIndex, h⟩)).spawns.foldl queueJob
                { s with log := s.log ++ [s.queue.get ⟨s.flushIndex, h⟩] }
            else s) with
          flushIndex :=
            (if (s.cat (s.queue.get ⟨s.flushIndex, h⟩)).active then
                (s.cat (s.queue.get ⟨s.flushIndex, h⟩)).spawns.foldl queueJob
                  { s with log := s.log ++ [s.queue.get ⟨s.flushIndex, h⟩] }
              else s).flushIndex + 1 } := by
  show (if h2 : s.flushIndex < s.queue.length then
      flushLoop m
        { (if (s.cat (s.queue.get ⟨s.flushIndex, h2⟩)).active then
              (s.cat (s.queue.get ⟨s.flushIndex, h2⟩)).spawns.foldl queueJob
                { s with log := s.log ++ [s.queue.get ⟨s.flushIndex, h2⟩] }
            else s) with
          flushIndex :=
            (if (s.cat (s.queue.get ⟨s.flushIndex, h2⟩)).active then
                (s.cat (s.queue.get ⟨s.flushIndex, h2⟩)).spawns.foldl queueJob
                  { s with log := s.log ++ [s.queue.get ⟨s.flushIndex, h2⟩] }
              else s).flushIndex + 1 }
    else s) = _
  rw [dif_pos h]

/-- Fold of `queueJob` over the jobs spawned by the running job: fields
preserved, prefix through `flushIndex` untouched, tail sortedness kept, and
every tail entry is an old one or a spawned one. -/
theorem spawnFold_spec (ks : List Nat) :
    ∀ s : SState, s.flushIndex < s.queue.length →
      (s.queue.drop (s.flushIndex + 1)).Pairwise (keyLE s.cat) →
      (ks.foldl queueJob s).cat = s.cat ∧
      (ks.foldl queueJob s).flushIndex = s.flushIndex ∧
      (ks.foldl queueJob s).isFlushing = s.isFlushing ∧
      (ks.foldl queueJob s).log = s.log ∧
      (ks.foldl queueJob s).queue.take (s.flushIndex + 1) =
        s.queue.take (s.flushIndex + 1) ∧
      ((ks.foldl queueJob s).queue.drop (s.flushIndex + 1)).Pairwise
        (keyLE s.cat) ∧
      (∀ b ∈ (ks.foldl queueJob s).queue.drop (s.flushIndex + 1),
        b ∈ ks ∨ b ∈ s.queue.drop (s.flushIndex + 1)) ∧
      s.flushIndex < (ks.foldl queueJob s).queue.length := by
  induction ks with
  | nil =>
    intro s h1 h2
    exact ⟨rfl, rfl, rfl, rfl, rfl, h2, fun b hb => Or.inr hb, h1⟩
  | cons k ks ih =>
    intro s h1 h2
    have hq := queueJob_spec s k h1 h2
    have hf := queueJob_fields s k
    have hlen : s.flushIndex < (queueJob s k).queue.length := by
      have := queueJob_length s k
      omega
    have hih := ih (queueJob s k) (by rw [hf.2.1]; exact hlen)
      (by rw [hf.2.1, hf.1]; exact hq.2.1)
    obtain ⟨ic, ifi, ifl, ilg, itk, ipw, imm, iln⟩ := hih
    rw [hf.2.1] at ifi itk ipw imm iln
    rw [hf.1] at ic ipw
    rw [List.foldl_cons]
    refine ⟨ic, ifi, ifl.trans hf.2.2.1,
      ilg.trans hf.2.2.2, itk.trans hq.1, ipw, ?_, iln⟩
    intro b hb
    rcases imm b hb with h | h
    · exact Or.inl (List.mem_cons_of_mem _ h)
    · rcases hq.2.2 b h with h2 | h2
      · exact Or.inl (by rw [h2]; exact List.mem_cons_self _ _)
      · exact Or.inr h2

/-- Invariant of the flush loop: the log is nondecreasing in the job order,
the pending part of the queue is sorted, and every logged job precedes
every pending job. -/
def FlushInv (s : SState) : Prop :=
  s.flushIndex ≤ s.queue.length ∧
  s.log.Chain' (keyLE s.cat) ∧
  (s.queue.drop s.flushIndex).Pairwise (keyLE s.cat) ∧
  (∀ a ∈ s.log, ∀ b ∈ s.queue.drop s.flushIndex, keyLE s.cat a b)

theorem flushLoop_inv (fuel : Nat) :
    ∀ s : SState, FlushInv s →
      (∀ j k, k ∈ (s.cat j).spawns → keyLE s.cat j k) →
      FlushInv (flushLoop fuel s) ∧ (flushLoop fuel s).cat = s.cat := by
  induction fuel with
  | zero => exact fun s h _ => ⟨h, rfl⟩
  | succ m ih =>
    intro s hinv hH
    obtain ⟨h1, h2, h3, h4⟩ := hinv
    by_cases hlt : s.flushIndex < s.queue.length
    case neg =>
      have hstop : flushLoop (m + 1) s = s := by
        unfold flushLoop
        rw [dif_neg hlt]
      rw [hstop]
      exact ⟨⟨h1, h2, h3, h4⟩, rfl⟩
    case pos =>
      rw [flushLoop_succ m s hlt]
      have hdropfi : s.queue.drop s.flushIndex =
          s.queue.get ⟨s.flushIndex, hlt⟩ :: s.queue.drop (s.flushIndex + 1) := by
        simp only [List.get_eq_getElem]
        exact List.drop_eq_getElem_cons hlt
      have hjmem : s.queue.get ⟨s.flushIndex, hlt⟩ ∈
          s.queue.drop s.flushIndex := by
        rw [hdropfi]
        exact List.mem_cons_self _ _
      rw [hdropfi] at h3
      have hjtail := (List.pairwise_cons.mp h3).1
      have htailpw := (List.pairwise_cons.mp h3).2
      by_cases hact : (s.cat (s.queue.get ⟨s.flushIndex, hlt⟩)).active = true
      · rw [if_pos hact]
        have hchain : (s.log ++ [s.queue.get ⟨s.flushIndex, hlt⟩]).Chain'
            (keyLE s.cat) := by
          rw [List.chain'_append]
          refine ⟨h2, List.chain'_singleton _, ?_⟩
          intro x hx y hy
          have hyj : s.queue.get ⟨s.flushIndex, hlt⟩ = y := by simpa using hy
          rw [← hyj]
          exact h4 x (List.mem_of_mem_getLast? hx) _ hjmem
        have hsp := spawnFold_spec
          (s.cat (s.queue.get ⟨s.flushIndex, hlt⟩)).spawns
          { s with log := s.log ++ [s.queue.get ⟨s.flushIndex, hlt⟩] }
          hlt htailpw
        obtain ⟨sc, sfi, sfl, slg, stk, spw, smm, sln⟩ := hsp
        dsimp only at sc sfi sfl slg stk spw smm sln
        have hinv3 : FlushInv
            { ((s.cat (s.queue.get ⟨s.flushIndex, hlt⟩)).spawns.foldl queueJob
                { s with log := s.log ++ [s.queue.get ⟨s.flushIndex, hlt⟩] }) with
              flushIndex :=
                ((s.cat (s.queue.get ⟨s.flushIndex, hlt⟩)).spawns.foldl
                  queueJob
                  { s with
                    log := s.log ++ [s.queue.get ⟨s.flushIndex, hlt⟩]
                  }).flushIndex + 1 } := by
          refine ⟨?_, ?_, ?_, ?_⟩
          · dsimp only
            rw [sfi]
            exact sln
          · dsimp only
            rw [slg, sc]
            exact hchain
          · dsimp only
            rw [sfi, sc]
            exact spw
          · intro a ha b hb
            dsimp only at ha hb ⊢
            rw [slg] at ha
            rw [sfi] at hb
            rw [sc]
            have hb2 := smm b hb
            rcases List.mem_append.mp ha with hal | haj
            · rcases hb2 with hsb | hob
              · exact jobLE_trans _ _ _
                  (h4 a hal _ hjmem) (hH _ b hsb)
              · exact h4 a hal b
                  (by rw [hdropfi]; exact List.mem_cons_of_mem _ hob)
            · have haj2 : a = s.queue.get ⟨s.flushIndex, hlt⟩ := by
                simpa using haj
              rw [haj2]
              rcases hb2 with hsb | hob
              · exact hH _ b hsb
              · exact hjtail b hob
        have hH3 : ∀ a b, b ∈
            (({ ((s.cat (s.queue.get ⟨s.flushIndex, hlt⟩)).spawns.foldl queueJob
                { s with log := s.log ++ [s.queue.get ⟨s.flushIndex, hlt⟩] }) with
              flushIndex :=
                ((s.cat (s.queue.get ⟨s.flushIndex, hlt⟩)).spawns.foldl
                  queueJob
                  { s with
                    log := s.log ++ [s.queue.get ⟨s.flushIndex, hlt⟩]
                  }).flushIndex + 1 }).cat a).spawns →
            keyLE
              ({ ((s.cat (s.queue.get ⟨s.flushIndex, hlt⟩)).spawns.foldl queueJob
                { s with log := s.log ++ [s.queue.get ⟨s.flushIndex, hlt⟩] }) with
              flushIndex :=
                ((s.cat (s.queue.get ⟨s.flushIndex, hlt⟩)).spawns.foldl
                  queueJob
                  { s with
                    log := s.log ++ [s.queue.get ⟨s.flushIndex, hlt⟩]
                  }).flushIndex + 1 }).cat a b := by
          intro a b hb
          dsimp only at hb ⊢
          rw [sc] at hb ⊢
          exact hH a b hb
        have hres := ih
          { ((s.cat (s.queue.get ⟨s.flushIndex, hlt⟩)).spawns.foldl queueJob
                { s with log := s.log ++ [s.queue.get ⟨s.flushIndex, hlt⟩] }) with
              flushIndex :=
                ((s.cat (s.queue.get ⟨s.flushIndex, hlt⟩)).spawns.foldl
                  queueJob
                  { s with
                    log := s.log ++ [s.queue.get ⟨s.flushIndex, hlt⟩]
                  }).flushIndex + 1 } hinv3 hH3
        refine ⟨hres.1, hres.2.trans ?_⟩
        dsimp only
        exact sc
      · rw [if_neg hact]
        have hres := ih { s with flushIndex := s.flushIndex + 1 } ?_ hH
        · exact hres
        · refine ⟨by show s.flushIndex + 1 ≤ s.queue.length; omega, h2,
            htailpw, ?_⟩
          intro a ha b hb
          exact h4 a ha b (by rw [hdropfi]; exact List.mem_cons_of_mem _ hb)

/-- Claim C6 counterexample: a mid-flush `queueJob` is inserted only after
`flushIndex`, so a job spawned with a SMALLER id than the job that is
running still executes after it: job 0 (id 5) spawns job 1 (id 1) and the
flush log is [0, 1] — ids 5, 1 — not nondecreasing.  The claim is false for
jobs inserted while the flush is running. -/
def c6cat : Nat → Job := fun n =>
  if n = 0 then
    { jid := some 5, pre := false, active := true, allowRecurse := false
      spawns := [1] }
  else if n = 1 then
    { jid := some 1, pre := false, active := true, allowRecurse := false
      spawns := [] }
  else
    { jid := none, pre := false, active := false, allowRecurse := false
      spawns := [] }

def c6World : SState :=
  { cat := c6cat, queue := [0], flushIndex := 0, isFlushing := false
    log := [] }

theorem flush_midflush_counterexample :
    (flushJobs 3 c6World).log = [0, 1] ∧
    jobLE (c6World.cat 0) (c6World.cat 1) = false ∧
    ¬ (flushJobs 3 c6World).log.Chain'
        (fun a b => jobLE (c6World.cat a) (c6World.cat b) = true) := by
  refine ⟨by decide, by decide, ?_⟩
  intro h
  have h2 : (flushJobs 3 c6World).log = [0, 1] := by decide
  rw [h2] at h
  have h3 := List.chain'_cons.mp h
  exact absurd h3.1 (by decide)

/-- Claim C6 (amended): within one flush the executed jobs are in
nondecreasing order of the scheduler key — numeric id ascending, a missing
id last (Infinity), and at equal ids a `pre` job first — provided every job
enqueued during the flush has a key at least the key of the job that
enqueues it (as parent updates spawning child updates do).  This covers
jobs inserted while the flush is running; without the proviso the order can
decrease (see the counterexample). -/
theorem flush_order_spec (fuel : Nat) (s : SState) (hlog : s.log = [])
    (hH : ∀ j k, k ∈ (s.cat j).spawns → keyLE s.cat j k) :
    (flushJobs fuel s).log.Chain' (keyLE s.cat) := by
  have hsort : (List.insertionSort
      (fun a b => jobLE (s.cat a) (s.cat b) = true) s.queue).Pairwise
      (keyLE s.cat) := by
    haveI : IsTotal Nat (fun a b => jobLE (s.cat a) (s.cat b) = true) :=
      ⟨fun a b => jobLE_total (s.cat a) (s.cat b)⟩
    haveI : IsTrans Nat (fun a b => jobLE (s.cat a) (s.cat b) = true) :=
      ⟨fun a b c => jobLE_trans (s.cat a) (s.cat b) (s.cat c)⟩
    exact List.sorted_insertionSort
      (fun a b => jobLE (s.cat a) (s.cat b) = true) s.queue
  have hinv1 : FlushInv
      { s with
        queue := List.insertionSort
          (fun a b => jobLE (s.cat a) (s.cat b) = true) s.queue
        flushIndex := 0
        isFlushing := true } := by
    refine ⟨Nat.zero_le _, ?_, ?_, ?_⟩
    · show s.log.Chain' _
      rw [hlog]
      exact List.chain'_nil
    · exact hsort
    · intro a ha
      rw [show ({ s with
        queue := List.insertionSort
          (fun a b => jobLE (s.cat a) (s.cat b) = true) s.queue
        flushIndex := 0
        isFlushing := true } : SState).log = s.log from rfl, hlog] at ha
      exact absurd ha (List.not_mem_nil a)
  have hres := flushLoop_inv fuel
    { s with
      queue := List.insertionSort
        (fun a b => jobLE (s.cat a) (s.cat b) = true) s.queue
      flushIndex := 0
      isFlushing := true } hinv1 hH
  have hchain := hres.1.2.1
  rw [hres.2] at hchain
  exact hchain

/-- A flush world whose spawns respect the key order: job 0 (id 1) spawns
job 1 (id 3); job 2 has id 2; queue starts unsorted as [2, 0]. -/
def c6bcat : Nat → Job := fun n =>
  if n = 0 then
    { jid := some 1, pre := false, active := true, allowRecurse := false
      spawns := [1] }
  else if n = 1 then
    { jid := some 3, pre := false, active := true, allowRecurse := false
      spawns := [] }
  else if n = 2 then
    { jid := some 2, pre := false, active := true, allowRecurse := false
      spawns := [] }
  else
    { jid := none, pre := false, active := false, allowRecurse := false
      spawns := [] }

def c6bWorld : SState :=
  { cat := c6bcat, queue := [2, 0], flushIndex := 0, isFlushing := false
    log := [] }

/-- Witness for the amended C6: the unsorted queue [2, 0] flushes as
0 (id 1), then 2 (id 2), then the mid-flush-spawned 1 (id 3) — in key
order. -/
theorem flush_order_spec_witness :
    (c6bWorld.log = [] ∧
      (∀ j k, k ∈ (c6bWorld.cat j).spawns → keyLE c6bWorld.cat j k)) ∧
    (flushJobs 5 c6bWorld).log.Chain' (keyLE c6bWorld.cat) := by
  have hH : ∀ j k, k ∈ (c6bWorld.cat j).spawns → keyLE c6bWorld.cat j k := by
    intro j k hk
    by_cases h0 : j = 0
    · subst h0
      have hk1 : k = 1 := by simpa [c6bWorld, c6bcat] using hk
      subst hk1
      show jobLE (c6bWorld.cat 0) (c6bWorld.cat 1) = true
      decide
    · by_cases h1 : j = 1
      · subst h1
        simp [c6bWorld, c6bcat] at hk
      · by_cases h2 : j = 2
        · subst h2
          simp [c6bWorld, c6bcat] at hk
        · simp [c6bWorld, c6bcat, h0, h1, h2] at hk
  exact ⟨⟨rfl, hH⟩, flush_order_spec 5 c6bWorld rfl hH⟩

theorem spawnFold_basic (ks : List Nat) :
    ∀ s : SState, (ks.foldl queueJob s).cat = s.cat ∧
      (ks.foldl queueJob s).log = s.log ∧
      (ks.foldl queueJob s).flushIndex = s.flushIndex ∧
      (∀ b ∈ (ks.foldl queueJob s).queue, b ∈ ks ∨ b ∈ s.queue) := by
  induction ks with
  | nil => exact fun s => ⟨rfl, rfl, rfl, fun b hb => Or.inr hb⟩
  | cons k ks ih =>
    intro s
    have hf := queueJob_fields s k
    have hih := ih (queueJob s k)
    rw [List.foldl_cons]
    refine ⟨hih.1.trans hf.1, hih.2.1.trans hf.2.2.2,
      hih.2.2.1.trans hf.2.1, ?_⟩
    intro b hb
    rcases hih.2.2.2 b hb with h | h
    · exact Or.inl (List.mem_cons_of_mem _ h)
    · rcases queueJob_mem s k b h with h2 | h2
      · exact Or.inl (by rw [h2]; exact List.mem_cons_self _ _)
      · exact Or.inr h2

/-- A job that is in neither queue nor log and is never spawned is never
executed by the flush loop. -/
theorem flushLoop_not_run (fuel : Nat) :
    ∀ (s : SState) (j : Nat), j ∉ s.queue → j ∉ s.log →
      (∀ a k, k ∈ (s.cat a).spawns → k ≠ j) →
      j ∉ (flushLoop fuel s).log := by
  induction fuel with
  | zero => exact fun s j _ hl _ => hl
  | succ m ih =>
    intro s j hq hl hsp
    by_cases hlt : s.flushIndex < s.queue.length
    · rw [flushLoop_succ m s hlt]
      have hcur : s.queue.get ⟨s.flushIndex, hlt⟩ ∈ s.queue :=
        List.get_mem _ _ hlt
      have hcurj : s.queue.get ⟨s.flushIndex, hlt⟩ ≠ j := by
        intro he
        rw [he] at hcur
        exact hq hcur
      by_cases hact : (s.cat (s.queue.get ⟨s.flushIndex, hlt⟩)).active = true
      · rw [if_pos hact]
        have hb := spawnFold_basic
          (s.cat (s.queue.get ⟨s.flushIndex, hlt⟩)).spawns
          { s with log := s.log ++ [s.queue.get ⟨s.flushIndex, hlt⟩] }
        dsimp only at hb
        apply ih
        · intro hj
          dsimp only at hj
          rcases hb.2.2.2 j hj with h | h
          · exact hsp _ j h rfl
          · exact hq h
        · intro hj
          dsimp only at hj
          rw [hb.2.1] at hj
          rcases List.mem_append.mp hj with h | h
          · exact hl h
          · have h2 : j = s.queue.get ⟨s.flushIndex, hlt⟩ := by simpa using h
            exact hcurj h2.symm
        · intro a k hk
          dsimp only at hk
          rw [hb.1] at hk
          exact hsp a k hk
      · rw [if_neg hact]
        exact ih _ j hq hl hsp
    · have hstop : flushLoop (m + 1) s = s := by
        unfold flushLoop
        rw [dif_neg hlt]
      rw [hstop]
      exact hl

/-- Claim C9 counterexample: job 0 is queued (at the head) and has never
executed, yet `invalidateJob` does not remove it — its index 0 is not
strictly greater than `flushIndex` 0 — and the next flush runs it. -/
def c9cat : Nat → Job := fun _ =>
  { jid := some 1, pre := false, active := true, allowRecurse := false
    spawns := [] }

def c9World : SState :=
  { cat := c9cat, queue := [0], flushIndex := 0, isFlushing := false
    log := [] }

theorem invalidateJob_head_counterexample :
    (invalidateJob c9World 0).queue = [0] ∧
    (flushJobs 2 (invalidateJob c9World 0)).log = [0] := by
  decide

/-- Claim C9 (amended): `invalidateJob` removes a queued job exactly when
its queue index is strictly greater than `flushIndex`; such a job is absent
from the queue afterwards and (when nothing re-spawns it) is not executed
by the flush.  A queued job at index at most `flushIndex` — notably the
queue head outside a flush, at index 0 — is NOT removed, contradicting the
claim as stated. -/
theorem invalidateJob_spec (s : SState) (j : Nat) (fuel : Nat)
    (hnd : s.queue.Nodup) (hmem : j ∈ s.queue) (hlog : j ∉ s.log)
    (hsp : ∀ a k, k ∈ (s.cat a).spawns → k ≠ j) :
    (s.flushIndex < s.queue.indexOf j →
      j ∉ (invalidateJob s j).queue ∧
      j ∉ (flushJobs fuel (invalidateJob s j)).log) ∧
    (s.queue.indexOf j ≤ s.flushIndex → invalidateJob s j = s) := by
  constructor
  · intro hgt
    have hrem : invalidateJob s j =
        { s with queue := s.queue.eraseIdx (s.queue.indexOf j) } := by
      unfold invalidateJob
      rw [if_pos hmem, if_pos hgt]
    have hnotmem : j ∉ (invalidateJob s j).queue := by
      rw [hrem]
      show j ∉ s.queue.eraseIdx (s.queue.indexOf j)
      rw [List.eraseIdx_indexOf_eq_erase]
      exact hnd.not_mem_erase
    refine ⟨hnotmem, ?_⟩
    show j ∉ (flushLoop fuel _).log
    apply flushLoop_not_run
    · intro hj
      exact hnotmem ((List.perm_insertionSort _ _).mem_iff.mp hj)
    · show j ∉ (invalidateJob s j).log
      rw [hrem]
      exact hlog
    · show ∀ a k, k ∈ ((invalidateJob s j).cat a).spawns → k ≠ j
      rw [hrem]
      exact hsp
  · intro hle
    unfold invalidateJob
    rw [if_pos hmem, if_neg (by omega)]

def c9bWorld : SState :=
  { cat := c9cat, queue := [0, 1], flushIndex := 0, isFlushing := true
    log := [] }

/-- Witness for the amended C9: mid-flush, job 1 sits at index 1 past
`flushIndex` 0; invalidating it removes it and the flush never runs it. -/
theorem invalidateJob_spec_witness :
    (c9bWorld.queue.Nodup ∧ 1 ∈ c9bWorld.queue ∧ 1 ∉ c9bWorld.log ∧
      (∀ a k, k ∈ (c9bWorld.cat a).spawns → k ≠ 1) ∧
      c9bWorld.flushIndex < c9bWorld.queue.indexOf 1) ∧
    1 ∉ (invalidateJob c9bWorld 1).queue ∧
    1 ∉ (flushJobs 2 (invalidateJob c9bWorld 1)).log := by
  have hsp : ∀ a k, k ∈ (c9bWorld.cat a).spawns → k ≠ 1 := by
    intro a k hk
    simp [c9bWorld, c9cat] at hk
  have h := (invalidateJob_spec c9bWorld 1 2 (by decide) (by decide)
    (by decide) hsp).1 (by decide)
  exact ⟨⟨by decide, by decide, by decide, hsp, by decide⟩, h⟩

/-! ### Claims C7 and C10: the KeepAlive cache. -/

/-- A KeepAlive cache key: `vnode.key == null ? comp : vnode.key`. -/
inductive CKey where
  | vkey : Nat → CKey
  | ctype : Nat → CKey
deriving DecidableEq

/-- The slice of a vnode KeepAlive manipulates: the component type id, the
optional vnode key, and the numeric `shapeFlag` bit set. -/
structure CVNode where
  typ : Nat
  key : Option Nat
  shapeFlag : Nat
deriving DecidableEq

/-- Modelled from the spec (vnode.ts is not in src/): two vnodes are the
same type when both the `type` and the `key` agree. -/
def isSameVNodeType (a b : CVNode) : Bool :=
  decide (a.typ = b.typ) && decide (a.key = b.key)

/-- `x &= ~FLAG` for a single-bit FLAG `b` (a power of two). -/
def clearBit (f b : Nat) : Nat := if f / b % 2 = 1 then f - b else f

/-- `x |= FLAG` for a single-bit FLAG `b` (a power of two). -/
def setBit (f b : Nat) : Nat := if f / b % 2 = 1 then f else f + b

/-- `resetShapeFlag` of KeepAlive.ts: clear COMPONENT_SHOULD_KEEP_ALIVE
(1 <<< 8) and COMPONENT_KEPT_ALIVE (1 <<< 9). -/
def resetShapeFlag (v : CVNode) : CVNode :=
  { v with shapeFlag := clearBit (clearBit v.shapeFlag 256) 512 }

/-- JS `Map.set`: update in place, else append. -/
def cacheSet {κ α : Type} [DecidableEq κ] (m : List (κ × α)) (k : κ)
    (v : α) : List (κ × α) :=
  if (mapGet m k).isSome then
    m.map (fun p => if p.1 = k then (k, v) else p)
  else m ++ [(k, v)]

/-- JS `Map.delete`. -/
def mapDelete {κ α : Type} [DecidableEq κ] (m : List (κ × α)) (k : κ) :
    List (κ × α) :=
  m.filter (fun p => p.1 ≠ k)

/-- JS `Set.add`: no-op when present (the element keeps its old position),
else append. -/
def setAdd (l : List CKey) (k : CKey) : List CKey :=
  if k ∈ l then l else l ++ [k]

/-- The KeepAlive closure state: the cache map, the insertion-ordered key
set, `current`, the `max` prop, `pendingCacheKey`, and an observation log
of the vnodes passed to `unmount`. -/
structure KAState where
  cache : List (CKey × CVNode)
  keys : List CKey
  current : Option CVNode
  max : Option Nat
  pendingKey : Option CKey
  unmounted : List CVNode
deriving DecidableEq

/-- The local `unmount(vnode)` of KeepAlive.ts: reset the keep-alive shape
flags, then unmount for real (logged). -/
def unmountV (s : KAState) (v : CVNode) : KAState :=
  { s with unmounted := s.unmounted ++ [resetShapeFlag v] }

/-- `pruneCacheEntry(key)` of KeepAlive.ts.  (The source reads
`cache.get(key)` unchecked; it is only called with cached keys, and the
model leaves the state unchanged on a miss.) -/
def pruneCacheEntry (s : KAState) (k : CKey) : KAState :=
  match mapGet s.cache k with
  | none => s
  | some cached =>
    let s2 :=
      match s.current with
      | none => unmountV s cached
      | some cur =>
        if isSameVNodeType cached cur then
          { s with current := some (resetShapeFlag cur) }
        else unmountV s cached
    { s2 with cache := mapDelete s2.cache k, keys := s2.keys.erase k }

/-- `vnode.key == null ? comp : vnode.key`. -/
def ckeyOf (v : CVNode) : CKey :=
  match v.key with
  | none => CKey.ctype v.typ
  | some n => CKey.vkey n

/-- The cache-relevant tail of the KeepAlive render closure for a cacheable
component child: look the key up; on a hit mark the vnode kept-alive and
refresh its key (delete + re-add); on a miss add the key and prune the
oldest entry when `max` is set and exceeded; finally mark
COMPONENT_SHOULD_KEEP_ALIVE, record the pending cache key and set
`current`. -/
def renderStep (s : KAState) (v : CVNode) : KAState :=
  let k := ckeyOf v
  match mapGet s.cache k with
  | some _ =>
    let v2 := { v with shapeFlag := setBit (setBit v.shapeFlag 512) 256 }
    { s with keys := s.keys.erase k ++ [k], pendingKey := some k
             current := some v2 }
  | none =>
    let s2 := { s with keys := setAdd s.keys k }
    let s3 :=
      match s2.max with
      | some m =>
        if m ≠ 0 ∧ m < s2.keys.length then
          match s2.keys with
          | [] => s2
          | h :: _ => pruneCacheEntry s2 h
        else s2
      | none => s2
    let v2 := { v with shapeFlag := setBit v.shapeFlag 256 }
    { s3 with pendingKey := some k, current := some v2 }

/-- `cacheSubtree` (run from the mounted/updated hooks): store the current
subtree under the pending cache key. -/
def cacheSubtree (s : KAState) : KAState :=
  match s.pendingKey, s.current with
  | some k, some v => { s with cache := cacheSet s.cache k v }
  | _, _ => s

/-- One full activation of a child: render then the mounted/updated hook. -/
def activate (s : KAState) (v : CVNode) : KAState :=
  cacheSubtree (renderStep s v)

theorem mapGet_mapDelete_self {κ α : Type} [DecidableEq κ]
    (m : List (κ × α)) (k : κ) : mapGet (mapDelete m k) k = none := by
  induction m with
  | nil => rfl
  | cons a as ih =>
    unfold mapDelete at ih ⊢
    rw [List.filter_cons]
    by_cases ha : a.1 = k
    · rw [if_neg (by simp [ha])]
      exact ih
    · rw [if_pos (by simp [ha])]
      unfold mapGet at ih ⊢
      rw [List.find?_cons, decide_eq_false ha]
      exact ih

def kaA : CVNode := { typ := 1, key := none, shapeFlag := 4 }

def kaB : CVNode := { typ := 2, key := none, shapeFlag := 4 }

def kaC : CVNode := { typ := 3, key := none, shapeFlag := 4 }

def ka0 : KAState :=
  { cache := [], keys := [], current := none, max := some 2
    pendingKey := none, unmounted := [] }

/-- Claim C7: the cache key is the vnode key when present, else the
component type; a cache hit deletes and re-adds the key (making it the
freshest) without touching the cache map or unmounting anything; a cache
miss within capacity appends the key and evicts nothing; and in the
concrete max = 2 run, activating A, B, C in turn evicts A (which is
unmounted), keeps B cached and leaves C active. -/
theorem keepalive_lru_policy (s : KAState) (v c : CVNode) (m : Nat) :
    ((∀ n, v.key = some n → ckeyOf v = CKey.vkey n) ∧
      (v.key = none → ckeyOf v = CKey.ctype v.typ)) ∧
    (mapGet s.cache (ckeyOf v) = some c →
      (renderStep s v).keys = s.keys.erase (ckeyOf v) ++ [ckeyOf v] ∧
      (renderStep s v).cache = s.cache ∧
      (renderStep s v).unmounted = s.unmounted) ∧
    (mapGet s.cache (ckeyOf v) = none → s.max = some m →
      (setAdd s.keys (ckeyOf v)).length ≤ m →
      (renderStep s v).keys = setAdd s.keys (ckeyOf v) ∧
      (renderStep s v).cache = s.cache ∧
      (renderStep s v).unmounted = s.unmounted) ∧
    ((activate (activate (activate ka0 kaA) kaB) kaC).keys =
        [CKey.ctype 2, CKey.ctype 3] ∧
      mapGet (activate (activate (activate ka0 kaA) kaB) kaC).cache
        (CKey.ctype 1) = none ∧
      mapGet (activate (activate (activate ka0 kaA) kaB) kaC).cache
        (CKey.ctype 2) = some { typ := 2, key := none, shapeFlag := 260 } ∧
      mapGet (activate (activate (activate ka0 kaA) kaB) kaC).cache
        (CKey.ctype 3) = some { typ := 3, key := none, shapeFlag := 260 } ∧
      (activate (activate (activate ka0 kaA) kaB) kaC).current =
        some { typ := 3, key := none, shapeFlag := 260 } ∧
      (activate (activate (activate ka0 kaA) kaB) kaC).unmounted =
        [{ typ := 1, key := none, shapeFlag := 4 }]) := by
  refine ⟨⟨?_, ?_⟩, ?_, ?_, by decide⟩
  · intro n hn
    unfold ckeyOf
    rw [hn]
  · intro hn
    unfold ckeyOf
    rw [hn]
  · intro hhit
    simp only [renderStep, hhit]
    exact ⟨trivial, trivial, trivial⟩
  · intro hmiss hmax hcap
    simp only [renderStep, hmiss, hmax]
    rw [if_neg (by omega)]
    exact ⟨rfl, rfl, rfl⟩

/-- Witness for C7 at a concrete hit: re-activating A when A is cached. -/
theorem keepalive_lru_policy_witness :
    (mapGet (activate ka0 kaA).cache (ckeyOf kaA) =
      some { typ := 1, key := none, shapeFlag := 260 }) ∧
    ((renderStep (activate ka0 kaA) kaA).keys =
        (activate ka0 kaA).keys.erase (ckeyOf kaA) ++ [ckeyOf kaA] ∧
      (renderStep (activate ka0 kaA) kaA).cache = (activate ka0 kaA).cache ∧
      (renderStep (activate ka0 kaA) kaA).unmounted =
        (activate ka0 kaA).unmounted) :=
  ⟨by decide,
    (keepalive_lru_policy (activate ka0 kaA) kaA
      { typ := 1, key := none, shapeFlag := 260 } 0).2.1 (by decide)⟩

/-- Claim C10: `pruneCacheEntry` never unmounts the currently displayed
component: when the cached vnode for the key is the same type and key as
`current`, it only resets current's keep-alive shape-flag bits and removes
the key from cache and key set (no unmount); otherwise it unmounts the
cached vnode (with its flags reset) and then removes the key. -/
theorem prune_preserves_current (s : KAState) (k : CKey) (c cur : CVNode)
    (hc : mapGet s.cache k = some c) :
    (s.current = some cur → isSameVNodeType c cur = true →
      (pruneCacheEntry s k).unmounted = s.unmounted ∧
      (pruneCacheEntry s k).current = some (resetShapeFlag cur) ∧
      mapGet (pruneCacheEntry s k).cache k = none ∧
      (pruneCacheEntry s k).keys = s.keys.erase k) ∧
    (s.current = some cur → isSameVNodeType c cur = false →
      (pruneCacheEntry s k).unmounted = s.unmounted ++ [resetShapeFlag c] ∧
      (pruneCacheEntry s k).current = s.current ∧
      mapGet (pruneCacheEntry s k).cache k = none ∧
      (pruneCacheEntry s k).keys = s.keys.erase k) ∧
    (s.current = none →
      (pruneCacheEntry s k).unmounted = s.unmounted ++ [resetShapeFlag c] ∧
      (pruneCacheEntry s k).current = none ∧
      mapGet (pruneCacheEntry s k).cache k = none ∧
      (pruneCacheEntry s k).keys = s.keys.erase k) := by
  refine ⟨?_, ?_, ?_⟩
  · intro hcur hsame
    simp [pruneCacheEntry, hc, hcur, hsame, mapGet_mapDelete_self]
  · intro hcur hdiff
    simp [pruneCacheEntry, hc, hcur, hdiff, mapGet_mapDelete_self, unmountV]
  · intro hcur
    simp [pruneCacheEntry, hc, hcur, mapGet_mapDelete_self, unmountV]

/-- Witness for C10: pruning B's key while B is current resets flags only
(nothing unmounted); the same-type check is exercised concretely. -/
theorem prune_preserves_current_witness :
    (mapGet (activate (activate ka0 kaA) kaB).cache (CKey.ctype 2) =
        some { typ := 2, key := none, shapeFlag := 260 } ∧
      (activate (activate ka0 kaA) kaB).current =
        some { typ := 2, key := none, shapeFlag := 260 } ∧
      isSameVNodeType { typ := 2, key := none, shapeFlag := 260 }
        { typ := 2, key := none, shapeFlag := 260 } = true) ∧
    ((pruneCacheEntry (activate (activate ka0 kaA) kaB)
        (CKey.ctype 2)).unmounted =
        (activate (activate ka0 kaA) kaB).unmounted ∧
      (pruneCacheEntry (activate (activate ka0 kaA) kaB)
        (CKey.ctype 2)).current =
        some (resetShapeFlag { typ := 2, key := none, shapeFlag := 260 }) ∧
      mapGet (pruneCacheEntry (activate (activate ka0 kaA) kaB)
        (CKey.ctype 2)).cache (CKey.ctype 2) = none ∧
      (pruneCacheEntry (activate (activate ka0 kaA) kaB)
        (CKey.ctype 2)).keys =
        (activate (activate ka0 kaA) kaB).keys.erase (CKey.ctype 2)) :=
  ⟨⟨by decide, by decide, by decide⟩,
    (prune_preserves_current (activate (activate ka0 kaA) kaB) (CKey.ctype 2)
      { typ := 2, key := none, shapeFlag := 260 }
      { typ := 2, key := none, shapeFlag := 260 } (by decide)).1
      (by decide) (by decide)⟩

/-! ### Claim C8: parser whitespace handling (`condenseWhitespace`). -/

/-- Characters by code, to avoid escape-laden literals. -/
def chr9 : Char := Char.ofNat 9

def chr10 : Char := Char.ofNat 10

def chr12 : Char := Char.ofNat 12

def chr13 : Char := Char.ofNat 13

/-- `isWhitespace(c)` of the tokenizer: space, newline, tab, form feed,
carriage return. -/
def isWhitespaceChar (c : Char) : Bool :=
  c = ' ' || c = chr10 || c = chr9 || c = chr12 || c = chr13

/-- A template child node as `condenseWhitespace` sees it: its NodeTypes
tag, with text content carried along. -/
inductive PNode where
  | ptext : List Char → PNode
  | element : PNode
  | comment : PNode
  | interpolation : PNode
deriving DecidableEq

def isAllWhitespace (s : List Char) : Bool := s.all isWhitespaceChar

def hasNewlineChar (s : List Char) : Bool :=
  s.any (fun c => c = chr10 || c = chr13)

/-- `condense(str)`: collapse every whitespace run to one space. -/
def condenseGo : Bool → List Char → List Char
  | _, [] => []
  | prevWs, c :: rest =>
    if isWhitespaceChar c then
      if prevWs then condenseGo true rest else ' ' :: condenseGo true rest
    else c :: condenseGo false rest

def condense (s : List Char) : List Char := condenseGo false s

/-- `str.replace(/\r\n/g, '\n')`. -/
def replaceCRLF : List Char → List Char
  | [] => []
  | [c] => [c]
  | c :: c2 :: rest =>
    if c = chr13 ∧ c2 = chr10 then chr10 :: replaceCRLF rest
    else c :: replaceCRLF (c2 :: rest)

/-- `str.replace(/^\r?\n/, '')`. -/
def stripLeadingNewline (s : List Char) : List Char :=
  match s with
  | c :: c2 :: rest =>
    if c = chr13 ∧ c2 = chr10 then rest
    else if c = chr10 then c2 :: rest
    else s
  | [c] => if c = chr10 then [] else s
  | [] => s

/-- The removal condition of the whitespace-only branch (`!prev || !next ||
(shouldCondense && (...))`): `prevT`/`nextT` are the types of the
neighbouring slots, `none` when out of range or nulled. -/
def shouldRemoveWs (shouldCondense : Bool) (prevT nextT : Option PNode)
    (c : List Char) : Bool :=
  match prevT with
  | none => true
  | some p =>
    match nextT with
    | none => true
    | some n =>
      shouldCondense &&
        ((p matches PNode.comment) &&
            ((n matches PNode.comment) || (n matches PNode.element)) ||
          (p matches PNode.element) &&
            ((n matches PNode.comment) ||
              ((n matches PNode.element) && hasNewlineChar c)))

/-- The in-place loop of `condenseWhitespace`: `done` is the processed
prefix of the array exactly as the source mutates it (a nulled slot is
`none`); `prev` is read from the mutated prefix, `next` from the original
remainder. -/
def cwGo (shouldCondense inPre : Bool) (done : List (Option PNode)) :
    List PNode → List (Option PNode)
  | [] => done
  | n :: rest =>
    match n with
    | PNode.ptext content =>
      if inPre then
        cwGo shouldCondense inPre
          (done ++ [some (PNode.ptext (replaceCRLF content))]) rest
      else
        if isAllWhitespace content then
          let prevT : Option PNode :=
            match done.getLast? with
            | some (some p) => some p
            | _ => none
          let nextT : Option PNode := rest.head?
          if shouldRemoveWs shouldCondense prevT nextT content then
            cwGo shouldCondense inPre (done ++ [none]) rest
          else
            cwGo shouldCondense inPre
              (done ++ [some (PNode.ptext [' '])]) rest
        else
          if shouldCondense then
            cwGo shouldCondense inPre
              (done ++ [some (PNode.ptext (condense content))]) rest
          else cwGo shouldCondense inPre (done ++ [some n]) rest
    | _ => cwGo shouldCondense inPre (done ++ [some n]) rest

/-- `condenseWhitespace(nodes, tag)` of part_007: run the loop, then inside
an actual `<pre>` tag strip the leading newline of the first node, and
filter the nulled slots out (when nothing was nulled, `filterMap` returns
the array unchanged, like the source's `removedWhitespace` shortcut). -/
def condenseWhitespace (shouldCondense inPre isPreTag : Bool)
    (nodes : List PNode) : List PNode :=
  let processed := cwGo shouldCondense inPre [] nodes
  let processed2 :=
    if inPre ∧ isPreTag then
      match processed with
      | some (PNode.ptext c) :: rest =>
        some (PNode.ptext (stripLeadingNewline c)) :: rest
      | l => l
    else processed
  processed2.filterMap (fun o => o)

def isTextNode : PNode → Bool
  | PNode.ptext _ => true
  | _ => false

theorem condenseGo_spec (s : List Char) : ∀ b : Bool,
    (∀ ch ∈ condenseGo b s, isWhitespaceChar ch = true → ch = ' ') ∧
    (condenseGo b s).Chain' (fun a b2 => ¬(a = ' ' ∧ b2 = ' ')) ∧
    (b = true → ∀ h ∈ (condenseGo b s).head?, h ≠ ' ') := by
  induction s with
  | nil =>
    intro b
    refine ⟨fun ch hch => absurd hch (List.not_mem_nil ch),
      List.chain'_nil, ?_⟩
    intro hb h hh
    simp [condenseGo] at hh
  | cons c rest ih =>
    intro b
    by_cases hws : isWhitespaceChar c = true
    · by_cases hb : b = true
      · subst hb
        have he : condenseGo true (c :: rest) = condenseGo true rest := by
          simp [condenseGo, hws]
        rw [he]
        exact ih true
      · have hb2 : b = false := by simpa using hb
        subst hb2
        have he : condenseGo false (c :: rest) =
            ' ' :: condenseGo true rest := by
          simp [condenseGo, hws]
        rw [he]
        obtain ⟨ih1, ih2, ih3⟩ := ih true
        refine ⟨?_, ?_, ?_⟩
        · intro ch hch hwch
          rcases List.mem_cons.mp hch with h | h
          · exact h
          · exact ih1 ch h hwch
        · rw [List.chain'_cons']
          refine ⟨?_, ih2⟩
          intro h hh hcon
          exact (ih3 rfl h hh) hcon.2
        · intro hfb
          simp at hfb
    · have he : condenseGo b (c :: rest) = c :: condenseGo false rest := by
        simp [condenseGo, hws]
      rw [he]
      obtain ⟨ih1, ih2, ih3⟩ := ih false
      have hcs : c ≠ ' ' := by
        intro hceq
        rw [hceq] at hws
        simp [isWhitespaceChar] at hws
      refine ⟨?_, ?_, ?_⟩
      · intro ch hch hwch
        rcases List.mem_cons.mp hch with h | h
        · exact absurd (h ▸ hwch) hws
        · exact ih1 ch h hwch
      · rw [List.chain'_cons']
        refine ⟨?_, ih2⟩
        intro h hh hcon
        exact hcs hcon.1
      · intro hb h hh
        have hhc : c = h := by simpa using hh
        rw [← hhc]
        exact hcs

/-- Claim C8 counterexample: `preserve` mode does NOT leave text nodes
untouched — a lone whitespace-only text node is deleted (leading/trailing
deletion is unconditional on the mode); and in condense mode a
whitespace-only node before a comment survives (as a single space) when
the node before it is an interpolation, although the claim's "adjacent to
a comment" wording says it is deleted. -/
theorem condenseWhitespace_counterexample :
    condenseWhitespace false false false [PNode.ptext [' ']] = [] ∧
    condenseWhitespace true false false
      [PNode.interpolation, PNode.ptext [' '], PNode.comment] =
      [PNode.interpolation, PNode.ptext [' '], PNode.comment] := by
  decide

/-- Claim C8 (amended): outside `<pre>`, a whitespace-only text node that
is leading or trailing is deleted in BOTH modes (and a slot nulled by a
previous deletion counts as missing, so deletions cascade from the front);
a whitespace-only node between two non-text siblings is deleted exactly
when condense mode is on and the source's prev/next matrix fires — prev a
comment and next a comment or element, or prev an element and next a
comment, or both elements with a newline in the content — and otherwise
(in both modes, so not untouched in preserve) becomes a single space; a
non-whitespace-only text node is condensed (runs of whitespace collapsed
to single spaces, and only spaces) in condense mode and left alone in
preserve mode; inside `<pre>` Windows newlines are normalized and, for a
real pre tag, the leading newline is stripped. -/
theorem whitespace_policy_spec (sc : Bool) (p n : PNode) (c d : List Char)
    (hp : isTextNode p = false) (hn : isTextNode n = false) :
    (isAllWhitespace c = true →
      condenseWhitespace sc false false [PNode.ptext c] = [] ∧
      condenseWhitespace sc false false [PNode.ptext c, n] = [n] ∧
      condenseWhitespace sc false false [p, PNode.ptext c] = [p] ∧
      condenseWhitespace sc false false [p, PNode.ptext c, n] =
        (if shouldRemoveWs sc (some p) (some n) c then [p, n]
         else [p, PNode.ptext [' '], n])) ∧
    (isAllWhitespace c = false →
      condenseWhitespace sc false false [PNode.ptext c] =
        [PNode.ptext (if sc then condense c else c)]) ∧
    condenseWhitespace sc true true [PNode.ptext c] =
      [PNode.ptext (stripLeadingNewline (replaceCRLF c))] ∧
    ((∀ ch ∈ condense d, isWhitespaceChar ch = true → ch = ' ') ∧
      (condense d).Chain' (fun a b2 => ¬(a = ' ' ∧ b2 = ' '))) ∧
    condenseWhitespace false false false
      [PNode.ptext [' '], PNode.ptext [' '], PNode.element] =
      [PNode.element] := by
  refine ⟨?_, ?_, ?_, ⟨(condenseGo_spec d false).1, (condenseGo_spec d false).2.1⟩,
    by decide⟩
  · intro hws
    refine ⟨?_, ?_, ?_, ?_⟩
    · simp [condenseWhitespace, cwGo, hws, shouldRemoveWs]
    · cases n <;> simp [isTextNode] at hn <;>
        simp [condenseWhitespace, cwGo, hws, shouldRemoveWs]
    · cases p <;> simp [isTextNode] at hp <;>
        simp [condenseWhitespace, cwGo, hws, shouldRemoveWs]
    · cases p <;> simp [isTextNode] at hp <;> cases n <;>
        simp [isTextNode] at hn <;>
        (simp [condenseWhitespace, cwGo, hws]
         split <;> simp)
  · intro hws
    cases sc <;> simp [condenseWhitespace, cwGo, hws, condense]
  · simp [condenseWhitespace, cwGo, stripLeadingNewline]

/-- Witness for the amended C8 at concrete inputs. -/
theorem whitespace_policy_spec_witness :
    (isTextNode PNode.element = false ∧ isTextNode PNode.comment = false ∧
      isAllWhitespace [' ', chr10] = true) ∧
    condenseWhitespace true false false
      [PNode.element, PNode.ptext [' ', chr10], PNode.comment] =
      [PNode.element, PNode.comment] := by
  refine ⟨⟨rfl, rfl, by decide⟩, ?_⟩
  have h := (whitespace_policy_spec true PNode.element PNode.comment
    [' ', chr10] [] rfl rfl).1 (by decide)
  have h4 := h.2.2.2
  rw [if_pos (by decide)] at h4
  exact h4

end Spec2Proof
